import Mathlib

/-!
Verification development for the bw-flasher repository.

Byte arrays (Python `bytes` / `bytearray`) are modelled either as `List Nat`
(for whole buffers that are traversed) or as functions `Nat → Nat` from index
to byte value (for buffers that are indexed and updated in place).  All byte
values are `Nat`s; masking (`&&& 0xFF`, `&&& 0xFFFF`) is written exactly where
the Python source masks.
-/

set_option maxRecDepth 100000

namespace BwFlasher

/-- In-place byte-array write: `setB d i v` is the array `d` with index `i`
set to `v` (model of `dst[i] = v`). -/
def setB (d : Nat → Nat) (i v : Nat) : Nat → Nat := fun j => if j = i then v else d j

/-! ## keygen.py -/

/-- One iteration of the `for j in range(16, 176, 4)` loop of `gen_key`
(keygen.py).  First `dst[j:j+4] = dst[j-16:j-12]`, then the 4-byte mixing
word `local` is computed (plain copy of `dst[j-4:j]`, or the substituted
variant when `j` is a multiple of 16), then `dst[j+i] ^= local[i]`. -/
def gen_key_step (lut0 lut1 : Nat → Nat) (d : Nat → Nat) (j : Nat) : Nat → Nat :=
  let d1 := setB (setB (setB (setB d j (d (j - 16))) (j + 1) (d (j - 15)))
    (j + 2) (d (j - 14))) (j + 3) (d (j - 13))
  let l0 := if j % 16 ≠ 0 then d1 (j - 4) else lut0 (d1 (j - 3)) ^^^ lut1 (j / 16)
  let l1 := if j % 16 ≠ 0 then d1 (j - 3) else lut0 (d1 (j - 2))
  let l2 := if j % 16 ≠ 0 then d1 (j - 2) else lut0 (d1 (j - 1))
  let l3 := if j % 16 ≠ 0 then d1 (j - 1) else lut0 (d1 (j - 4))
  setB (setB (setB (setB d1 j (d1 j ^^^ l0)) (j + 1) (d1 (j + 1) ^^^ l1))
    (j + 2) (d1 (j + 2) ^^^ l2)) (j + 3) (d1 (j + 3) ^^^ l3)

/-- `gen_key(dst, src, lookup_table_0, lookup_table_1)` of keygen.py:
`dst[:16] = src[:16]` (the 176-byte `dst` starts as `bytearray(176)`, i.e.
zeros), then the expansion loop runs over `j = 16, 20, …, 172`. -/
def gen_key (src lut0 lut1 : Nat → Nat) : Nat → Nat :=
  (List.range' 16 40 4).foldl (gen_key_step lut0 lut1) (fun i => if i < 16 then src i else 0)

/-- `xor_byte_blocks(dst, src, block_index)` of keygen.py:
`for j in range(block_index*16, (block_index+1)*16): dst[j % 16] ^= src[j]`. -/
def xor_byte_blocks (dst src : Nat → Nat) (block_index : Nat) : Nat → Nat :=
  (List.range' (block_index * 16) 16).foldl
    (fun a j => setB a (j % 16) (a (j % 16) ^^^ src j)) dst

/-- One `offset` iteration of `manipulate_bytes` (keygen.py).  The five
`local` values are read from the array before any write; the three XOR
assignments per byte are combined into one `setB` per index (the four written
indices are distinct, so sequential and simultaneous assignment agree).
`get_sign(to_char(b)) * c` with `c = -0x1B` equals `0x1B` exactly when the
byte `b` has its top bit set (`128 ≤ b` for byte values), and `0` otherwise. -/
def manipulate_quarter (a : Nat → Nat) (offset : Nat) : Nat → Nat :=
  let l0 := a offset ^^^ a (offset + 1)
  let l1 := a (offset + 1) ^^^ a (offset + 2)
  let l2 := a (offset + 2) ^^^ a (offset + 3)
  let l3 := a (offset + 3) ^^^ a offset
  let l4 := l0 ^^^ l2
  let f : Nat → Nat → Nat := fun x l =>
    x ^^^ ((l <<< 1) &&& 0xFF) ^^^ (if 128 ≤ l then 0x1B else 0) ^^^ l4
  setB (setB (setB (setB a offset (f (a offset) l0)) (offset + 1) (f (a (offset + 1)) l1))
    (offset + 2) (f (a (offset + 2)) l2)) (offset + 3) (f (a (offset + 3)) l3)

/-- `manipulate_bytes(dst_src)` of keygen.py: the column mixing applied to the
four 4-byte columns at offsets 0, 4, 8, 12. -/
def manipulate_bytes (d : Nat → Nat) : Nat → Nat :=
  [0, 4, 8, 12].foldl manipulate_quarter d

/-- `roll_bytes(bytearr, indices)` of keygen.py: read the values at `indices`,
rotate the value list by one, write back position by position. -/
def roll_bytes (d : Nat → Nat) (indices : List Nat) : Nat → Nat :=
  let values := indices.map d
  let rolled := values.drop 1 ++ values.take 1
  (indices.zip rolled).foldl (fun a p => setB a p.1 p.2) d

/-- The substitution double loop of `sign_rand_with_key` (keygen.py):
`for outer_index in range(0, 16, 4): for inner_index in range(4): …` visits
the indices 0, 1, …, 15 in increasing order, replacing each byte by its
lookup-table image. -/
def sub_table (lut : Nat → Nat) (d : Nat → Nat) : Nat → Nat :=
  (List.range 16).foldl (fun a t => setB a t (lut (a t))) d

/-- One `current_block` iteration of the main loop of `sign_rand_with_key`
(keygen.py). -/
def sign_rand_round (src lut : Nat → Nat) (d : Nat → Nat) (current_block : Nat) : Nat → Nat :=
  let d := if 0 < current_block then manipulate_bytes d else d
  let d := xor_byte_blocks d src current_block
  let d := sub_table lut d
  let d := roll_bytes d [1, 5, 9, 13]
  let d := roll_bytes d [2, 10]
  let d := roll_bytes d [3, 15, 11, 7]
  roll_bytes d [6, 14]

/-- `sign_rand_with_key(dst, src, lookup_table)` of keygen.py: ten rounds
followed by the final `xor_byte_blocks(dst, src, 10)`. -/
def sign_rand_with_key (d0 src lut : Nat → Nat) : Nat → Nat :=
  xor_byte_blocks ((List.range 10).foldl (sign_rand_round src lut) d0) src 10

/-- `lookup_table_0` built by `sign_rand` (keygen.py):
`for i in range(256): lookup_table_0[i] = fw[base_offset+0xA802+i]`.
Out-of-range reads (which would raise `IndexError` in Python and never occur
in the algorithm) are modelled as 0. -/
def lookup_table_0 (fw : Nat → Nat) (base_offset : Nat) : Nat → Nat :=
  fun i => if i < 256 then fw (base_offset + 0xA802 + i) else 0

/-- `lookup_table_1` built by `sign_rand` (keygen.py): `bytearray(1+10)` whose
byte 0 stays 0 and `for i in range(1, 1+10): lookup_table_1[i] =
fw[base_offset+0xAA02+i]`. -/
def lookup_table_1 (fw : Nat → Nat) (base_offset : Nat) : Nat → Nat :=
  fun i => if 1 ≤ i ∧ i < 11 then fw (base_offset + 0xAA02 + i) else 0

/-- `sign_rand(uid, rand, fw, base_offset)` of keygen.py. -/
def sign_rand (uid rand fw : Nat → Nat) (base_offset : Nat) : Nat → Nat :=
  sign_rand_with_key rand
    (gen_key uid (lookup_table_0 fw base_offset) (lookup_table_1 fw base_offset))
    (lookup_table_0 fw base_offset)

/-! ### Specification-side definitions for the key engine (written from the
spec's §4.4 wording, to be compared with the source functions above). -/

/-- The 4-byte mixing word `L` exactly as the specification words it:
`L = K[j-4..j]` when `j mod 16 ≠ 0`, and otherwise
`L = [SBOX[K[j-3]] XOR RCON[j/16], SBOX[K[j-2]], SBOX[K[j-1]], SBOX[K[j-4]]]`. -/
def gen_key_mix (lut0 lut1 K : Nat → Nat) (j i : Nat) : Nat :=
  if j % 16 ≠ 0 then K (j - 4 + i)
  else if i = 0 then lut0 (K (j - 3)) ^^^ lut1 (j / 16)
  else if i = 1 then lut0 (K (j - 2))
  else if i = 2 then lut0 (K (j - 1))
  else lut0 (K (j - 4))

/-- The spec's permutation step: rotate the index groups `{1,5,9,13}`,
`{2,10}`, `{3,15,11,7}`, `{6,14}` one step left (each listed position
receives the value of the next position in its group's cycle). -/
def rotate_groups_spec (d : Nat → Nat) : Nat → Nat := fun i =>
  if i = 1 then d 5 else if i = 5 then d 9 else if i = 9 then d 13 else if i = 13 then d 1
  else if i = 2 then d 10 else if i = 10 then d 2
  else if i = 3 then d 15 else if i = 15 then d 11 else if i = 11 then d 7
  else if i = 7 then d 3
  else if i = 6 then d 14 else if i = 14 then d 6
  else d i

/-- One round `r` of the spec's §4.4 signing engine: `mix` for rounds `r > 0`,
then `S ← S XOR K[r*16 .. r*16+16]`, then bytewise SBOX substitution, then the
group rotation. -/
def sign_rand_round_spec (key lut : Nat → Nat) (d : Nat → Nat) (r : Nat) : Nat → Nat :=
  let d := if 0 < r then manipulate_bytes d else d
  let d := fun i => if i < 16 then d i ^^^ key (r * 16 + i) else d i
  let d := fun i => if i < 16 then lut (d i) else d i
  rotate_groups_spec d

/-- The spec's §4.4 signing engine: ten rounds on `S` (initially `RAND`)
followed by the final `S ← S XOR K[160 .. 176]`. -/
def sign_rand_spec (d0 key lut : Nat → Nat) : Nat → Nat :=
  let d := (List.range 10).foldl (sign_rand_round_spec key lut) d0
  fun i => if i < 16 then d i ^^^ key (160 + i) else d i

/-- A read-only slice `FW[a .. a+len)` of a byte buffer. -/
def bytes_slice (fw : Nat → Nat) (a len : Nat) : List Nat :=
  (List.range len).map (fun k => fw (a + k))

/-- The RCON extraction exactly as the claim words it: the vector used at
indices 1..10 equals the bytes `FW[base+0xAA03 .. base+0xAA0B)`. -/
def rcon_as_claimed (fw : Nat → Nat) (base : Nat) : Prop :=
  (List.range 10).map (fun k => lookup_table_1 fw base (1 + k)) =
    bytes_slice fw (base + 0xAA03) (0xAA0B - 0xAA03)

/-! ## CRC functions

`calculate_crc16` in flash_uart.py is `binascii.crc_hqx(data, 0)` and
`calculate_crc32` is `binascii.crc32(data)`; both live in the Python standard
library, outside this repository.  `crc_hqx` is modelled from its
documentation and CPython implementation (byte-at-a-time table-driven
CRC-CCITT, the table entry for `n` being the 8-fold bit step of `n << 8`);
`crc32` is modelled from the spec (§4.1: the standard IEEE 802.3 CRC-32,
which is the reflected polynomial `0xEDB88320` algorithm with initial value
and final XOR `0xFFFFFFFF`). -/

/-- One bit step of `LeqiFlasher.crc16_standard` (leqi_flasher.py):
`crc = ((crc << 1) ^ 0x1021) & 0xFFFF` when bit 15 is set, else
`crc = (crc << 1) & 0xFFFF`. -/
def crc16_bit_step (crc : Nat) : Nat :=
  if crc &&& 0x8000 ≠ 0 then ((crc <<< 1) ^^^ 0x1021) &&& 0xFFFF else (crc <<< 1) &&& 0xFFFF

/-- `LeqiFlasher.crc16_standard(data)` (leqi_flasher.py): starting from 0,
each byte is XORed into the top (`crc ^= byte << 8`), followed by eight bit
steps; the result is returned masked with `0xFFFF`. -/
def crc16_standard (data : List Nat) : Nat :=
  (data.foldl (fun crc byte => crc16_bit_step^[8] (crc ^^^ (byte <<< 8))) 0) &&& 0xFFFF

/-- The `crc_hqx` CRC table: entry `n` is the eight-fold bit step of
`n << 8` (CPython's `crctab_hqx`). -/
def crc_hqx_table (idx : Nat) : Nat := crc16_bit_step^[8] ((idx &&& 0xFF) <<< 8)

/-- Model of `binascii.crc_hqx(data, crc)` (CPython: byte-at-a-time via
`crc = ((crc << 8) & 0xff00) ^ crctab_hqx[((crc >> 8) & 0xff) ^ byte]`). -/
def crc_hqx (data : List Nat) (crc0 : Nat) : Nat :=
  data.foldl
    (fun crc byte => ((crc <<< 8) &&& 0xFF00) ^^^ crc_hqx_table (((crc >>> 8) &&& 0xFF) ^^^ byte))
    (crc0 &&& 0xFFFF)

/-- `calculate_crc16(data)` of flash_uart.py: `binascii.crc_hqx(data, 0x0)`. -/
def calculate_crc16 (data : List Nat) : Nat := crc_hqx data 0

/-- CRC-16/XMODEM written directly from its parameters (polynomial `0x1021`,
initial value `0x0000`, no reflection, no final XOR): bits are processed
MSB-first, one at a time. -/
def crc16_xmodem_ref (data : List Nat) : Nat :=
  data.foldl
    (fun crc byte =>
      (List.range 8).foldl
        (fun c k =>
          if c.testBit 15 != byte.testBit (7 - k) then ((c <<< 1) &&& 0xFFFF) ^^^ 0x1021
          else (c <<< 1) &&& 0xFFFF)
        crc)
    0

/-- One bit step of the reflected IEEE CRC-32. -/
def crc32_bit_step (crc : Nat) : Nat :=
  if crc &&& 1 = 1 then (crc >>> 1) ^^^ 0xEDB88320 else crc >>> 1

/-- Model of `binascii.crc32(data)` (standard IEEE 802.3 CRC-32). -/
def calculate_crc32 (data : List Nat) : Nat :=
  (data.foldl (fun crc byte => crc32_bit_step^[8] (crc ^^^ (byte &&& 0xFF))) 0xFFFFFFFF)
    ^^^ 0xFFFFFFFF

/-! ## flash_uart.py: the DFU driver -/

def PACKET_SIZE : Nat := 0x800

def CHUNK_SIZE : Nat := 0x80

def MAX_REPEATS : Nat := 20

/-- `self.total_packets = math.ceil(len(self.fw) / self.PACKET_SIZE)`
(`DFU.load_file`). -/
def total_packets (fw : List Nat) : Nat := (fw.length + PACKET_SIZE - 1) / PACKET_SIZE

/-- The firmware padded with `0xFF` to a `PACKET_SIZE` boundary. -/
def dfu_padded (fw : List Nat) : List Nat :=
  fw ++ List.replicate (total_packets fw * PACKET_SIZE - fw.length) 0xFF

/-- The padding applied in `DFU.send_fw_packet`: a non-empty packet shorter
than `PACKET_SIZE` is extended with `0xFF`; an empty packet is left alone
(the `if self.packet:` guard). -/
def pad_packet (packet : List Nat) : List Nat :=
  if packet = [] then packet else packet ++ List.replicate (PACKET_SIZE - packet.length) 0xFF

/-- The NVM_WRITE → SEND_FW → WR_INFO cycle of `DFU.run()` on the success
path (each command acknowledged, every chunk ACKed — exactly the responses of
the simulation backend `DFU.receive_response`; un-acknowledged commands only
repeat a state without changing `n_packets_sent`, `packet` or `data_sent`).
Round `k` slices `packet = fw[k*0x800:(k+1)*0x800]` (`send_nvm_write`), pads
it and appends it to `data_sent`, increments `n_packets_sent`
(`send_fw_packet`), then emits the WR_INFO record
`(n_packets_sent, CRC32(data_sent), data_sent)` (`send_wr_info`); the cycle
repeats while `self.packet` is non-empty. -/
def dfu_rounds_aux (fw : List Nat) : Nat → List Nat → Nat → List (Nat × Nat × List Nat)
  | _, _, 0 => []
  | k, ds, fuel + 1 =>
    let packet := pad_packet ((fw.drop (k * PACKET_SIZE)).take PACKET_SIZE)
    let ds' := ds ++ packet
    (k + 1, calculate_crc32 ds', ds') ::
      (if packet = [] then [] else dfu_rounds_aux fw (k + 1) ds' fuel)

/-- All WR_INFO emissions `(n_packets_sent, reported CRC32, data_sent)` of a
DFU run.  The fuel `total_packets fw + 1` covers every round: rounds
`0 … total_packets - 1` carry data and round `total_packets` is the final
empty round. -/
def dfu_wr_info_trace (fw : List Nat) : List (Nat × Nat × List Nat) :=
  dfu_rounds_aux fw 0 [] (total_packets fw + 1)

/-- `DFU.emit_progress`: `int(self.n_packets_sent / self.total_packets * 100)`,
modelled in exact integer arithmetic as `⌊n * 100 / total⌋`. -/
def dfu_progress (total n : Nat) : Nat := n * 100 / total

/-- Progress values emitted during the packet cycles of `DFU.run()`: round
`k` emits after NVM_WRITE (counter still `k`), after SEND_FW (counter now
`k + 1`) and after WR_INFO (counter `k + 1`), and continues while the padded
packet is non-empty. -/
def dfu_round_progress (fw : List Nat) : Nat → Nat → List Nat
  | _, 0 => []
  | k, fuel + 1 =>
    let T := total_packets fw
    let packet := pad_packet ((fw.drop (k * PACKET_SIZE)).take PACKET_SIZE)
    dfu_progress T k :: dfu_progress T (k + 1) :: dfu_progress T (k + 1) ::
      (if packet = [] then [] else dfu_round_progress fw (k + 1) fuel)

/-- The full progress trace of `DFU.run()` on the success path: one emission
after each of the six handshake states (UID, VER_INIT, INIT, BLE_RAND,
MCU_RAND, MCU_KEY — the packet counter is still 0 there), then the packet
cycles, then one emission after each of DFU_VERIFY, DFU_ACTIVE and VER_DONE
(counter `total_packets + 1` after the final empty round). -/
def dfu_progress_trace (fw : List Nat) : List Nat :=
  let T := total_packets fw
  List.replicate 6 (dfu_progress T 0) ++ dfu_round_progress fw 0 (T + 1) ++
    List.replicate 3 (dfu_progress T (T + 1))

/-- Result of the per-chunk retry loop in `DFU.send_fw_packet`. -/
inductive ChunkSendResult where
  | sentOk : ChunkSendResult
  | crcFail : ChunkSendResult
  | noAck : ChunkSendResult
deriving DecidableEq

/-- The retry loop of `DFU.send_fw_packet` for one chunk, with `responses i`
the bytes read on attempt `i` (attempts are numbered from 0):
`for repeat in range(MAX_REPEATS)` breaks on `b'\x06'`, raises "CRC fail" on
`b'\x15'`, and otherwise retries; after the loop,
`if repeat + 1 == MAX_REPEATS` raises the no-ACK error — also when the break
happened on the last attempt (`repeat = MAX_REPEATS - 1`). -/
def send_chunk_aux (responses : Nat → List Nat) : Nat → Nat → ChunkSendResult
  | _, 0 => .noAck
  | i, fuel + 1 =>
    if responses i = [0x06] then
      (if i + 1 = MAX_REPEATS then .noAck else .sentOk)
    else if responses i = [0x15] then .crcFail
    else if fuel = 0 then .noAck
    else send_chunk_aux responses (i + 1) fuel

/-- The complete per-chunk retry loop (`MAX_REPEATS` attempts). -/
def send_chunk (responses : Nat → List Nat) : ChunkSendResult :=
  send_chunk_aux responses 0 MAX_REPEATS

/-- A response schedule in which the device stays silent on attempts
1–19 and ACKs (`0x06`) on the 20th attempt. -/
def late_ack_responses : Nat → List Nat := fun i => if i = 19 then [0x06] else []

/-! ### The `sign_rand` callsite in `DFU.send_ble_rand`

`keygen.sign_rand` is declared as
`def sign_rand(uid, rand, fw, base_offset=0x17080)` — three required
positional parameters and one optional, four in total — while
`DFU.send_ble_rand` (flash_uart.py line 247) invokes it as
`sign_rand(self.uid, self.ble_rand, self.fw, self.fw_offsets[0],
self.fw_offsets[1])`, i.e. with five positional arguments. -/

def sign_rand_required_positional_params : Nat := 3

def sign_rand_max_positional_params : Nat := 4

def send_ble_rand_sign_rand_call_args : Nat := 5

/-- A Python positional call binds without `TypeError` exactly when the
number of supplied arguments lies between the number of required parameters
and the total number of positional parameters. -/
def python_positional_call_ok (required maxParams given : Nat) : Prop :=
  required ≤ given ∧ given ≤ maxParams

/-! ## leqi_flasher.py: the LEQI driver -/

/-- The inner `while i < len(data) and data[i] == 0xAA: i += 1` loop of
`LeqiFlasher.calculate_firmware_size`, with explicit fuel (the fuel passed is
always at least `n - i`, so it never runs out before the loop condition
fails). -/
def skip_aa (d : Nat → Nat) (n : Nat) : Nat → Nat → Nat
  | 0, i => i
  | fuel + 1, i => if i < n ∧ d i = 0xAA then skip_aa d n fuel (i + 1) else i

/-- The outer scan loop of `LeqiFlasher.calculate_firmware_size` over a
buffer of length `n` with bytes `d`: tracks `max_aa_length` and `max_aa_end`,
updating them whenever a run of `0xAA` is strictly longer than the current
maximum and longer than 500. -/
def calc_fw_size_aux (d : Nat → Nat) (n : Nat) : Nat → Nat → Nat → Nat → Nat × Nat
  | 0, _, maxLen, maxEnd => (maxLen, maxEnd)
  | fuel + 1, i, maxLen, maxEnd =>
    if i < n then
      if d i = 0xAA then
        let e := skip_aa d n (n - i) i
        if e - i > maxLen ∧ e - i > 500 then calc_fw_size_aux d n fuel e (e - i) e
        else calc_fw_size_aux d n fuel e maxLen maxEnd
      else calc_fw_size_aux d n fuel (i + 1) maxLen maxEnd
    else (maxLen, maxEnd)

/-- `LeqiFlasher.calculate_firmware_size(firmware_data)` for a buffer of
length `n` with bytes `d`: if a qualifying run was found
(`max_aa_end > 0`), round its end up to a 128-byte boundary, else return the
buffer length. -/
def calculate_firmware_size (d : Nat → Nat) (n : Nat) : Nat :=
  let r := calc_fw_size_aux d n n 0 0 0
  if 0 < r.2 then ((r.2 + 127) / 128) * 128 else n

/-- A maximal run of `0xAA` bytes `[s, e)` in a buffer of length `n`:
non-empty, all `0xAA`, and not extendable on either side. -/
def IsRun (d : Nat → Nat) (n s e : Nat) : Prop :=
  s < e ∧ e ≤ n ∧ (∀ k, s ≤ k → k < e → d k = 0xAA) ∧
    (s = 0 ∨ d (s - 1) ≠ 0xAA) ∧ (e = n ∨ d e ≠ 0xAA)

/-- Accumulator invariant of the `calculate_firmware_size` scan, read at
position `i`: either no qualifying run (length > 500) ends at or before `i`
and the accumulator is still `(0, 0)`, or the accumulator records the end and
length of a longest qualifying run ending at or before `i`. -/
def scan_acc_ok (d : Nat → Nat) (n i maxLen maxEnd : Nat) : Prop :=
  (maxLen = 0 ∧ maxEnd = 0 ∧ ∀ s e, IsRun d n s e → e ≤ i → e - s ≤ 500) ∨
    (500 < maxLen ∧ maxEnd ≤ i ∧ (∃ s, IsRun d n s maxEnd ∧ maxEnd - s = maxLen) ∧
      ∀ s e, IsRun d n s e → e ≤ i → e - s ≤ maxLen)

/-- `struct.pack('<I', x)`: the four little-endian bytes of `x`. -/
def le4 (x : Nat) : List Nat :=
  [x &&& 0xFF, (x >>> 8) &&& 0xFF, (x >>> 16) &&& 0xFF, (x >>> 24) &&& 0xFF]

/-- `struct.pack('>H', x)`: the two big-endian bytes of `x`. -/
def be2 (x : Nat) : List Nat := [(x >>> 8) &&& 0xFF, x &&& 0xFF]

/-- Python slice `d[a:b]` of a buffer of length `n` with bytes `d`
(clamped at the buffer length, empty when `a ≥ min b n`). -/
def py_slice_f (d : Nat → Nat) (n a b : Nat) : List Nat :=
  (List.range (min b n - a)).map (fun t => d (a + t))

/-- The last-chunk padding of `LeqiFlasher._send_firmware_data`:
`if len(chunk_data) < self.CHUNK_SIZE: chunk_data += b'\xFF' * (128 - len)`. -/
def leqi_pad_chunk (c : List Nat) : List Nat :=
  if c.length < 128 then c ++ List.replicate (128 - c.length) 0xFF else c

/-- One data packet of `LeqiFlasher._send_firmware_data`:
`[5A] [12] [04] [84] [OFFSET32_LE] [DATA×128] [CRC16_BE]`, the CRC taken over
the packet without its trailer. -/
def leqi_data_packet (d : Nat → Nat) (n fwSize offset : Nat) : List Nat :=
  let chunk := leqi_pad_chunk (py_slice_f d n offset (min (offset + 128) fwSize))
  let body := [0x5A, 0x12, 0x04, 0x84] ++ le4 offset ++ chunk
  body ++ be2 (crc16_standard body)

/-- The `while offset < self.fw_size` loop of
`LeqiFlasher._send_firmware_data`, producing the list of data packets sent
(`offset` advances to `chunk_end = min(offset + 128, fw_size)`). -/
def leqi_data_packets_aux (d : Nat → Nat) (n fwSize : Nat) : Nat → Nat → List (List Nat)
  | _, 0 => []
  | offset, fuel + 1 =>
    if offset < fwSize then
      leqi_data_packet d n fwSize offset ::
        leqi_data_packets_aux d n fwSize (min (offset + 128) fwSize) fuel
    else []

/-- All data packets sent by `LeqiFlasher._send_firmware_data` for a firmware
of length `n` with bytes `d` and derived size `fwSize`. -/
def leqi_data_packets (d : Nat → Nat) (n fwSize : Nat) : List (List Nat) :=
  leqi_data_packets_aux d n fwSize 0 fwSize

/-! ## firmware_detector.py -/

/-- `FirmwareType` of base_flasher.py. -/
inductive FirmwareType where
  | BRIGHTWAY : FirmwareType
  | LEQI : FirmwareType
  | NINEBOT : FirmwareType
  | UNKNOWN : FirmwareType
deriving DecidableEq

/-- `pattern` is a prefix of `data` (bytewise). -/
def listStartsWith : List Nat → List Nat → Bool
  | [], _ => true
  | _ :: _, [] => false
  | p :: ps, d :: ds => p == d && listStartsWith ps ds

/-- `find_pattern_offsets(pattern_hex, binary_data)` of utils.py: the empty
pattern yields no offsets; otherwise every offset at which the pattern
occurs, in increasing order (the Python loop re-searches from one byte past
each match, so overlapping matches are all found). -/
def find_pattern_offsets (pattern binary_data : List Nat) : List Nat :=
  if pattern = [] then []
  else (List.range binary_data.length).filter (fun i => listStartsWith pattern (binary_data.drop i))

/-- `bytes.count(b'\xaa\xa2')`: the number of non-overlapping occurrences of
the two-byte pattern `AA A2`, scanning left to right. -/
def count_aa_a2 : List Nat → Nat
  | [] => 0
  | [_] => 0
  | a :: b :: rest =>
    if a = 0xAA ∧ b = 0xA2 then 1 + count_aa_a2 rest else count_aa_a2 (b :: rest)

/-- Python slice `l[a:b]` of a byte list (`0 ≤ a ≤ b`, clamped at the end). -/
def py_slice_l (l : List Nat) (a b : Nat) : List Nat := (l.drop a).take (b - a)

/-- The `DEPRD5C\0` signature checked at offset 0x800. -/
def DEPRD5C : List Nat := [0x44, 0x45, 0x50, 0x52, 0x44, 0x35, 0x43, 0x00]

/-- `detect_firmware_type(firmware_data)` of firmware_detector.py. -/
def detect_firmware_type (fw : List Nat) : FirmwareType :=
  if fw.length < 0x1000 then .UNKNOWN
  else if 0x808 < fw.length ∧ py_slice_l fw 0x800 0x808 = DEPRD5C then .BRIGHTWAY
  else
    let offsets := find_pattern_offsets [0x63, 0x7C] fw
    if offsets.length = 1 ∧ 0x1000 < offsets.headD 0 then .BRIGHTWAY
    else if 10 < count_aa_a2 (py_slice_l fw 0x80 0x400) ∧
        50 < (py_slice_l fw 0x80 0x400).count 0xAA then .LEQI
    else .UNKNOWN

/-! ## utils.py: firmware ingestion -/

/-- A byte list decodes as ASCII exactly when every byte is below 128. -/
def ascii_ok (l : List Nat) : Bool := l.all (fun b => decide (b < 128))

/-- Truthiness of `_decode_model(data)` (utils.py): `data[0x100:0x10f]` is
decoded first (slicing never raises, so the second slice `data[0x400:0x40e]`
is tried only when the first contains a non-ASCII byte); the result is truthy
when the decoded string is non-empty. -/
def decode_model_truthy (data : List Nat) : Bool :=
  let s1 := py_slice_l data 0x100 0x10f
  if ascii_ok s1 then !s1.isEmpty
  else
    let s2 := py_slice_l data 0x400 0x40e
    if ascii_ok s2 then !s2.isEmpty else false

/-- `process_firmware(firmware_data)` of utils.py.  The two external
components are passed as parameters: `unzip x = some m` models a valid ZIP
container with extracted member `m` (`zipfile`), `none` models
`BadZipFile`; `decrypt x = some y` models a successful `fasttea.decrypt`,
`none` a raised exception.  After the optional unwrap and decrypt, payloads
longer than 4096 bytes lose their last two bytes. -/
def process_firmware (unzip decrypt : List Nat → Option (List Nat))
    (firmware_data : List Nat) : List Nat :=
  let fw := (unzip firmware_data).getD firmware_data
  let fw :=
    if decode_model_truthy fw then fw
    else
      match decrypt fw with
      | some dec => if decode_model_truthy dec then dec else fw
      | none => fw
  if 4096 < fw.length then fw.take (fw.length - 2) else fw

/-! ## Concrete fixtures used by witnesses and counterexamples -/

/-- `unzip` oracle for inputs that are not ZIP archives (e.g. all-zero
buffers, which make `zipfile` raise `BadZipFile`). -/
def no_container : List Nat → Option (List Nat) := fun _ => none

/-- `decrypt` oracle for inputs on which `fasttea.decrypt` raises. -/
def no_decrypt : List Nat → Option (List Nat) := fun _ => none

/-- 4100 zero bytes: not a ZIP container, model id decodes (NUL bytes are
ASCII), longer than 4096 bytes. -/
def c9_input : List Nat := List.replicate 4100 0

/-- 512 `'A'` bytes: not a container, model id decodes, at most 4096 bytes. -/
def c9_small_input : List Nat := List.replicate 0x200 65

/-- A firmware image (as index function, length 8000) that is zero except
for a single `0xAA` run of length 800 ending at offset `0x1F40 = 8000`. -/
def leqi_example_fw : Nat → Nat := fun i => if 7200 ≤ i ∧ i < 8000 then 0xAA else 0

def ex_uid : Nat → Nat := fun i => i + 1

def ex_lut0 : Nat → Nat := fun x => (x + 3) % 256

def ex_lut1 : Nat → Nat := fun x => (2 * x + 1) % 256

def ex_fw_bytes : Nat → Nat := fun i => i % 256

def ex_rand : Nat → Nat := fun i => i % 256

/-- The nine ASCII digits `"123456789"`, the canonical CRC check vector. -/
def check_vector : List Nat := [0x31, 0x32, 0x33, 0x34, 0x35, 0x36, 0x37, 0x38, 0x39]


end BwFlasher

/-! # Theorems -/

namespace BwFlasher

/-! ## Helper lemmas for the byte-array model -/

theorem setB_at (d : Nat → Nat) (i v : Nat) : setB d i v i = v := by
  simp [setB]

theorem setB_ne (d : Nat → Nat) (i v j : Nat) (h : j ≠ i) : setB d i v j = d j := by
  simp [setB, h]

/-! ## C1: the `sign_rand` call in `DFU.send_ble_rand` -/

/-- Claim C1: in the BLE_RAND state the driver is supposed to compute the
expected BLE key by calling the §4.4 signing engine with the two discovered
offsets and raise AuthMismatch exactly on a key mismatch.  The call as
written cannot bind: `DFU.send_ble_rand` passes five positional arguments to
`keygen.sign_rand`, which accepts at most four (three required plus the
optional `base_offset`), so Python raises `TypeError` before any key is
computed or compared. -/
theorem C1_send_ble_rand_sign_rand_arity_mismatch :
    ¬ python_positional_call_ok sign_rand_required_positional_params
      sign_rand_max_positional_params send_ble_rand_sign_rand_call_args :=
  fun h => absurd h.2 (by decide)

/-! ## C2: the per-chunk retry loop of `DFU.send_fw_packet` -/

/-- Claim C2: the claim states that a `0x06` received on any of the 20
attempts accepts the chunk and that NoAck is raised only when all 20 attempts
complete without a `0x06`.  On the schedule where the device ACKs exactly on
the 20th attempt, the loop breaks with `repeat = 19`, and the post-loop check
`repeat + 1 == MAX_REPEATS` still raises the no-ACK error. -/
theorem C2_ack_on_last_attempt_still_no_ack :
    send_chunk late_ack_responses = ChunkSendResult.noAck ∧
      late_ack_responses 19 = [0x06] ∧
      (∀ i, i < MAX_REPEATS → i ≠ 19 → late_ack_responses i ≠ [0x15]) := by
  refine ⟨by decide, by decide, ?_⟩
  intro i _ hne
  simp [late_ack_responses, hne]

/-! ## C8: the classifier -/

/-- Claim C8: classification is a pure, deterministic function of the
firmware bytes; it never returns both DFU (`BRIGHTWAY`) and LEQI on the same
input, and every input shorter than 0x1000 bytes is `UNKNOWN`. -/
theorem C8_detect_firmware_type_pure (fw : List Nat) :
    detect_firmware_type fw = detect_firmware_type fw ∧
      ¬ (detect_firmware_type fw = FirmwareType.BRIGHTWAY ∧
          detect_firmware_type fw = FirmwareType.LEQI) ∧
      (fw.length < 0x1000 → detect_firmware_type fw = FirmwareType.UNKNOWN) := by
  refine ⟨rfl, ?_, ?_⟩
  · rintro ⟨h1, h2⟩
    rw [h1] at h2
    cases h2
  · intro h
    unfold detect_firmware_type
    rw [if_pos h]

theorem C8_witness :
    (List.replicate 10 0).length < 0x1000 ∧
      detect_firmware_type (List.replicate 10 0) = FirmwareType.UNKNOWN :=
  ⟨by decide, (C8_detect_firmware_type_pure (List.replicate 10 0)).2.2 (by decide)⟩

end BwFlasher

/-! ## C9: idempotence of firmware ingestion -/

namespace BwFlasher

/-- Ingestion of a constant buffer of `n` copies of an ASCII byte `b` that is
not a container and does not decrypt: for `0x100 < n` the model id decodes,
so the only effect is the trailer strip on payloads longer than 4096. -/
theorem process_firmware_replicate (b n : Nat) (hb : b < 128) (hn : 0x100 < n) :
    process_firmware no_container no_decrypt (List.replicate n b) =
      List.replicate (if 4096 < n then n - 2 else n) b := by
  have hall : ∀ m, (List.replicate m b).all (fun x => decide (x < 128)) = true := by
    intro m
    simp only [List.all_eq_true, List.mem_replicate]
    rintro x ⟨-, rfl⟩
    simpa using hb
  have htruthy : decode_model_truthy (List.replicate n b) = true := by
    unfold decode_model_truthy py_slice_l ascii_ok
    simp only [List.drop_replicate, List.take_replicate, hall, if_true]
    simp only [Bool.not_eq_true', List.isEmpty_eq_false]
    simp only [ne_eq, List.replicate_eq_nil_iff]
    omega
  unfold process_firmware
  rw [show no_container (List.replicate n b) = none from rfl]
  simp only [Option.getD_none, htruthy, if_true]
  by_cases h : 4096 < n
  · rw [if_pos (by simpa using h), if_pos h]
    rw [List.length_replicate, List.take_replicate]
    congr 1
    omega
  · rw [if_neg (by simpa using h), if_neg h]

end BwFlasher

namespace BwFlasher

/-- Claim C9 counterexample: on 4100 zero bytes (not a ZIP container, model
id decodes — NUL bytes are ASCII — and longer than 4096 bytes), one
ingestion strips the input to 4098 bytes and a second ingestion strips it
again to 4096 bytes, so `ingest (ingest x) ≠ ingest x`. -/
theorem C9_counterexample :
    process_firmware no_container no_decrypt
        (process_firmware no_container no_decrypt c9_input) ≠
      process_firmware no_container no_decrypt c9_input := by
  have h1 : process_firmware no_container no_decrypt c9_input = List.replicate 4098 0 := by
    rw [show c9_input = List.replicate 4100 0 from rfl,
      process_firmware_replicate 0 4100 (by decide) (by decide)]
    norm_num
  have h2 : process_firmware no_container no_decrypt (List.replicate 4098 0) =
      List.replicate 4096 0 := by
    rw [process_firmware_replicate 0 4098 (by decide) (by decide)]
    norm_num
  rw [h1, h2]
  intro h
  have := congrArg List.length h
  simp only [List.length_replicate] at this
  omega

/-- Claim C9 amended: ingestion is not idempotent in general (every pass
strips two further bytes from a payload longer than 4096 bytes); it is
idempotent exactly on inputs whose ingestion result is a fixpoint of the
pipeline — in particular whenever the once-ingested result is not a
container, its model id decodes as ASCII, and it is at most 4096 bytes
long. -/
theorem C9_process_firmware_conditional_idempotent
    (unzip decrypt : List Nat → Option (List Nat)) (x : List Nat)
    (h1 : unzip (process_firmware unzip decrypt x) = none)
    (h2 : decode_model_truthy (process_firmware unzip decrypt x) = true)
    (h3 : (process_firmware unzip decrypt x).length ≤ 4096) :
    process_firmware unzip decrypt (process_firmware unzip decrypt x) =
      process_firmware unzip decrypt x := by
  set y := process_firmware unzip decrypt x with hy
  unfold process_firmware
  rw [h1]
  simp only [Option.getD_none, h2, if_true]
  rw [if_neg (by omega)]

theorem C9_witness :
    no_container (process_firmware no_container no_decrypt c9_small_input) = none ∧
      decode_model_truthy (process_firmware no_container no_decrypt c9_small_input) = true ∧
      (process_firmware no_container no_decrypt c9_small_input).length ≤ 4096 ∧
      process_firmware no_container no_decrypt
          (process_firmware no_container no_decrypt c9_small_input) =
        process_firmware no_container no_decrypt c9_small_input := by
  have hs : process_firmware no_container no_decrypt c9_small_input = List.replicate 0x200 65 := by
    rw [show c9_small_input = List.replicate 0x200 65 from rfl,
      process_firmware_replicate 65 0x200 (by decide) (by decide)]
    norm_num
  refine ⟨rfl, ?_, ?_, ?_⟩
  · rw [hs]
    decide
  · rw [hs]
    decide
  · exact C9_process_firmware_conditional_idempotent no_container no_decrypt c9_small_input
      rfl (by rw [hs]; decide) (by rw [hs]; decide)

end BwFlasher

/-! ## C4: the lookup tables read by `sign_rand` -/

namespace BwFlasher

theorem foldl_step_congr {α : Type} (f g : α → Nat → α) (l : List Nat)
    (h : ∀ d j, j ∈ l → f d j = g d j) : ∀ d, l.foldl f d = l.foldl g d := by
  induction l with
  | nil => intro d; rfl
  | cons j t ih =>
    intro d
    simp only [List.foldl_cons]
    rw [h d j (List.mem_cons_self j t)]
    exact ih (fun d' j' hj' => h d' j' (List.mem_cons_of_mem j hj')) (g d j)

theorem gen_key_step_lut1_congr (lut0 lut1 lut1' : Nat → Nat) (d : Nat → Nat) (j : Nat)
    (h : lut1 (j / 16) = lut1' (j / 16)) :
    gen_key_step lut0 lut1 d j = gen_key_step lut0 lut1' d j := by
  simp only [gen_key_step, h]

/-- Claim C4 counterexample: the claim's RCON range
`FW[base+0xAA03 .. base+0xAA0B)` contains 8 bytes, while the vector used at
indices 1..10 has 10 entries — on the concrete firmware `i ↦ i % 256` at
base 0 the two lists differ. -/
theorem C4_counterexample : ¬ rcon_as_claimed ex_fw_bytes 0 := by
  unfold rcon_as_claimed
  decide

/-- Claim C4 amended: `sign_rand` reads its lookup tables from the firmware
image at fixed relative positions from the base offset: the 256-byte SBOX is
exactly `FW[base+0xA802 .. base+0xA902)`, and the round-constant vector used
at indices 1..10 is exactly the 10 bytes `FW[base+0xAA03 .. base+0xAA0D)`
(the claim's upper bound `base+0xAA0B` covers only 8 bytes); index 0 of the
vector is 0 and unused — `gen_key` gives the same key for any table agreeing
on indices 1..10. -/
theorem C4_lookup_tables (fw : Nat → Nat) (base : Nat) :
    (List.range 256).map (lookup_table_0 fw base) = bytes_slice fw (base + 0xA802) 256 ∧
      (List.range 10).map (fun k => lookup_table_1 fw base (1 + k)) =
        bytes_slice fw (base + 0xAA03) 10 ∧
      lookup_table_1 fw base 0 = 0 ∧
      (∀ uid lut1', (∀ m, 1 ≤ m → m ≤ 10 → lut1' m = lookup_table_1 fw base m) →
        gen_key uid (lookup_table_0 fw base) lut1' =
          gen_key uid (lookup_table_0 fw base) (lookup_table_1 fw base)) := by
  refine ⟨?_, ?_, ?_, ?_⟩
  · apply List.map_congr_left
    intro i hi
    rw [List.mem_range] at hi
    simp only [lookup_table_0, if_pos hi]
  · apply List.map_congr_left
    intro k hk
    rw [List.mem_range] at hk
    simp only [lookup_table_1]
    rw [if_pos (by omega)]
    congr 1
    omega
  · simp [lookup_table_1]
  · intro uid lut1' hagree
    unfold gen_key
    apply foldl_step_congr
    intro d j hj
    rw [List.mem_range'] at hj
    obtain ⟨i, hi, rfl⟩ := hj
    apply gen_key_step_lut1_congr
    exact hagree _ (by omega) (by omega)

theorem C4_witness :
    (List.range 10).map (fun k => lookup_table_1 ex_fw_bytes 0 (1 + k)) =
        bytes_slice ex_fw_bytes (0 + 0xAA03) 10 ∧
      lookup_table_1 ex_fw_bytes 0 0 = 0 ∧
      gen_key ex_uid (lookup_table_0 ex_fw_bytes 0) (lookup_table_1 ex_fw_bytes 0) =
        gen_key ex_uid (lookup_table_0 ex_fw_bytes 0) (lookup_table_1 ex_fw_bytes 0) :=
  ⟨(C4_lookup_tables ex_fw_bytes 0).2.1, (C4_lookup_tables ex_fw_bytes 0).2.2.1,
    (C4_lookup_tables ex_fw_bytes 0).2.2.2 ex_uid _ (fun _ _ _ => rfl)⟩

end BwFlasher

/-! ## C3: the key engine implements the §4.4 algorithm -/

namespace BwFlasher

/-- A fold of writes at pairwise distinct indices, where the write at index
`k` reads only index `k`: the result updates each listed index once. -/
theorem foldl_setB_nodup (upd : Nat → Nat → Nat) (l : List Nat) (hl : l.Nodup) :
    ∀ (d : Nat → Nat) (i : Nat),
      (l.foldl (fun a k => setB a k (upd (a k) k)) d) i = if i ∈ l then upd (d i) i else d i := by
  induction l with
  | nil => intro d i; simp
  | cons k t ih =>
    intro d i
    obtain ⟨hk, ht⟩ := List.nodup_cons.mp hl
    simp only [List.foldl_cons]
    rw [ih ht]
    by_cases hit : i ∈ t
    · have hik : i ≠ k := fun h => hk (h ▸ hit)
      rw [if_pos hit, if_pos (List.mem_cons_of_mem k hit), setB_ne _ _ _ _ hik]
    · rw [if_neg hit]
      by_cases hik : i = k
      · subst hik
        rw [setB_at, if_pos (List.mem_cons_self i t)]
      · rw [setB_ne _ _ _ _ hik, if_neg (by simp [hik, hit])]

/-- `xor_byte_blocks(dst, src, b)` XORs `src[b*16 .. b*16+16)` into the
first 16 bytes of `dst` (the loop index `j % 16` visits each of 0..15
exactly once). -/
theorem xor_byte_blocks_eq (d src : Nat → Nat) (b : Nat) :
    xor_byte_blocks d src b = fun i => if i < 16 then d i ^^^ src (b * 16 + i) else d i := by
  unfold xor_byte_blocks
  rw [List.range'_eq_map_range, List.foldl_map]
  have hcong := foldl_step_congr
    (fun a k => setB a ((b * 16 + k) % 16) (a ((b * 16 + k) % 16) ^^^ src (b * 16 + k)))
    (fun a k => setB a k (a k ^^^ src (b * 16 + k)))
    (List.range 16)
    (by
      intro a k hk
      rw [List.mem_range] at hk
      show setB a ((b * 16 + k) % 16) (a ((b * 16 + k) % 16) ^^^ src (b * 16 + k)) =
        setB a k (a k ^^^ src (b * 16 + k))
      rw [show (b * 16 + k) % 16 = k from by omega])
  rw [hcong d]
  funext i
  rw [foldl_setB_nodup (fun x k => x ^^^ src (b * 16 + k)) (List.range 16) (List.nodup_range 16)]
  simp [List.mem_range]

/-- The substitution double loop replaces each of the first 16 bytes by its
table image. -/
theorem sub_table_eq (lut : Nat → Nat) (d : Nat → Nat) :
    sub_table lut d = fun i => if i < 16 then lut (d i) else d i := by
  unfold sub_table
  funext i
  rw [foldl_setB_nodup (fun x _ => lut x) (List.range 16) (List.nodup_range 16)]
  simp [List.mem_range]

theorem foldl_setB_pairs_frame (l : List (Nat × Nat)) (i : Nat)
    (h : ∀ p ∈ l, i ≠ p.1) : ∀ d : Nat → Nat, (l.foldl (fun a p => setB a p.1 p.2) d) i = d i := by
  induction l with
  | nil => intro d; rfl
  | cons p t ih =>
    intro d
    simp only [List.foldl_cons]
    rw [ih (fun q hq => h q (List.mem_cons_of_mem p hq))]
    exact if_neg (h p (List.mem_cons_self p t))

/-- `roll_bytes` writes only at the listed indices. -/
theorem roll_bytes_frame (d : Nat → Nat) (indices : List Nat) (i : Nat) (h : i ∉ indices) :
    roll_bytes d indices i = d i := by
  unfold roll_bytes
  apply foldl_setB_pairs_frame
  intro p hp
  have hmem := (List.of_mem_zip hp).1
  intro hip
  exact h (hip ▸ hmem)

theorem rotate_groups_spec_frame (d : Nat → Nat) (i : Nat) (h : 16 ≤ i) :
    rotate_groups_spec d i = d i := by
  simp only [rotate_groups_spec]
  repeat rw [if_neg (by omega)]

/-- The four successive `roll_bytes` calls equal the spec's one-step-left
group rotation. -/
theorem rolls_eq (d : Nat → Nat) :
    roll_bytes (roll_bytes (roll_bytes (roll_bytes d [1, 5, 9, 13]) [2, 10]) [3, 15, 11, 7])
      [6, 14] = rotate_groups_spec d := by
  funext i
  rcases Nat.lt_or_ge i 16 with h | h
  · interval_cases i <;> rfl
  · rw [roll_bytes_frame _ _ _ (by simp; omega), roll_bytes_frame _ _ _ (by simp; omega),
      roll_bytes_frame _ _ _ (by simp; omega), roll_bytes_frame _ _ _ (by simp; omega),
      rotate_groups_spec_frame d i h]

/-- Each round of `sign_rand_with_key` equals the corresponding spec round. -/
theorem sign_rand_round_eq (src lut : Nat → Nat) (d : Nat → Nat) (r : Nat) :
    sign_rand_round src lut d r = sign_rand_round_spec src lut d r := by
  unfold sign_rand_round sign_rand_round_spec
  dsimp only
  rw [xor_byte_blocks_eq, sub_table_eq]
  exact rolls_eq _

/-- Claim C3, signing part: `sign_rand_with_key` computes exactly the spec's
ten-round substitution–rotation network with the final key XOR. -/
theorem sign_rand_with_key_eq_spec (d0 src lut : Nat → Nat) :
    sign_rand_with_key d0 src lut = sign_rand_spec d0 src lut := by
  unfold sign_rand_with_key sign_rand_spec
  dsimp only
  rw [foldl_step_congr (sign_rand_round src lut) (sign_rand_round_spec src lut)
    (List.range 10) (fun d r _ => sign_rand_round_eq src lut d r)]
  rw [xor_byte_blocks_eq]

end BwFlasher

namespace BwFlasher

/-- One `gen_key` loop iteration writes only the four bytes `j .. j+3`. -/
theorem gen_key_step_frame (lut0 lut1 d : Nat → Nat) (j i : Nat)
    (h : i < j ∨ j + 3 < i) : gen_key_step lut0 lut1 d j i = d i := by
  simp only [gen_key_step, setB]
  repeat rw [if_neg (by omega)]

theorem foldl_gen_key_preserve (lut0 lut1 : Nat → Nat) (l : List Nat) (i : Nat)
    (h : ∀ x ∈ l, i < x) :
    ∀ d, (l.foldl (gen_key_step lut0 lut1) d) i = d i := by
  induction l with
  | nil => intro d; rfl
  | cons x t ih =>
    intro d
    simp only [List.foldl_cons]
    rw [ih (fun y hy => h y (List.mem_cons_of_mem x hy))]
    exact gen_key_step_frame lut0 lut1 d x i (Or.inl (h x (List.mem_cons_self x t)))

/-- The value written by one `gen_key` loop iteration: byte `j + i` becomes
the copy of byte `j - 16 + i` XORed with the mixing word of the claim. -/
theorem gen_key_step_write (lut0 lut1 d : Nat → Nat) (j : Nat) (hj : 16 ≤ j)
    (i : Nat) (hi : i < 4) :
    gen_key_step lut0 lut1 d j (j + i) = d (j - 16 + i) ^^^ gen_key_mix lut0 lut1 d j i := by
  interval_cases i <;>
    (simp only [gen_key_step, gen_key_mix, setB, if_true, if_false, Nat.add_zero]
     by_cases hc : j % 16 = 0 <;>
       (repeat first | rw [if_neg (by omega)] | rw [if_pos (by omega)]) <;>
       first
         | rfl
         | (congr 1 <;> first | rfl | omega | (congr 1 <;> omega)))

/-- `gen_key_mix` reads only bytes strictly below `j`. -/
theorem gen_key_mix_congr (lut0 lut1 d d' : Nat → Nat) (j i : Nat) (hj : 16 ≤ j)
    (hi : i < 4) (h : ∀ t, t < j → d t = d' t) :
    gen_key_mix lut0 lut1 d j i = gen_key_mix lut0 lut1 d' j i := by
  unfold gen_key_mix
  split_ifs <;> rw [h _ (by omega)]

end BwFlasher

namespace BwFlasher

/-- Claim C3: `gen_key` and the signing rounds implement exactly the §4.4
algorithm.  `K[0..16]` is the UID; for every `j ∈ {16, 20, …, 172}` the word
`K[j..j+4]` is `K[j-16..j-12]` XORed bytewise with the claim's mixing word
`L` (plain copy of `K[j-4..j]`, or the substituted-rotated word with the
round constant on byte 0 when `16 ∣ j`); and `sign_rand_with_key` equals the
spec's ten-round mix/XOR/substitute/rotate network with the final XOR of
`K[160..176]`. -/
theorem C3_key_engine (uid lut0 lut1 d0 key lut : Nat → Nat) :
    ((∀ i, i < 16 → gen_key uid lut0 lut1 i = uid i) ∧
      (∀ j, 16 ≤ j → j ≤ 172 → j % 4 = 0 → ∀ i, i < 4 →
        gen_key uid lut0 lut1 (j + i) =
          gen_key uid lut0 lut1 (j - 16 + i) ^^^
            gen_key_mix lut0 lut1 (gen_key uid lut0 lut1) j i)) ∧
      sign_rand_with_key d0 key lut = sign_rand_spec d0 key lut := by
  refine ⟨⟨?_, ?_⟩, sign_rand_with_key_eq_spec d0 key lut⟩
  · intro i hi
    unfold gen_key
    rw [foldl_gen_key_preserve lut0 lut1 _ i ?_]
    · exact if_pos hi
    · intro x hx
      rw [List.mem_range'] at hx
      obtain ⟨t, _, rfl⟩ := hx
      omega
  · intro j hj1 hj2 hj4 i hi
    set m := (j - 16) / 4 with hm
    have hjm : j = 16 + 4 * m := by omega
    have hm40 : m < 40 := by omega
    set Fm := (List.range' 16 m 4).foldl (gen_key_step lut0 lut1)
      (fun t => if t < 16 then uid t else 0) with hFm
    have hsplit : List.range' 16 40 4 =
        List.range' 16 m 4 ++ List.range' (16 + 4 * m) (40 - m) 4 := by
      rw [List.range'_append 16 m (40 - m) 4]
      congr 1
      omega
    have hcons : List.range' (16 + 4 * m) (40 - m) 4 =
        j :: List.range' (j + 4) (39 - m) 4 := by
      rw [hjm, show 40 - m = (39 - m) + 1 from by omega, List.range'_succ]
    have hK : gen_key uid lut0 lut1 =
        (List.range' (j + 4) (39 - m) 4).foldl (gen_key_step lut0 lut1)
          (gen_key_step lut0 lut1 Fm j) := by
      unfold gen_key
      rw [hsplit, hcons, List.foldl_append, List.foldl_cons]
    have hSmem : ∀ x ∈ List.range' (j + 4) (39 - m) 4, j + 3 < x := by
      intro x hx
      rw [List.mem_range'] at hx
      obtain ⟨t, _, rfl⟩ := hx
      omega
    have hstab : ∀ t, t < j → gen_key uid lut0 lut1 t = Fm t := by
      intro t ht
      rw [hK, foldl_gen_key_preserve lut0 lut1 _ t (fun x hx => by have := hSmem x hx; omega),
        gen_key_step_frame lut0 lut1 Fm j t (Or.inl ht)]
    have hwrite : gen_key uid lut0 lut1 (j + i) =
        Fm (j - 16 + i) ^^^ gen_key_mix lut0 lut1 Fm j i := by
      rw [hK, foldl_gen_key_preserve lut0 lut1 _ (j + i)
          (fun x hx => by have := hSmem x hx; omega),
        gen_key_step_write lut0 lut1 Fm j hj1 i hi]
    rw [hstab (j - 16 + i) (by omega),
      gen_key_mix_congr lut0 lut1 (gen_key uid lut0 lut1) Fm j i hj1 hi hstab]
    exact hwrite

theorem C3_witness :
    gen_key ex_uid ex_lut0 ex_lut1 5 = ex_uid 5 ∧
      gen_key ex_uid ex_lut0 ex_lut1 (16 + 1) =
        gen_key ex_uid ex_lut0 ex_lut1 (16 - 16 + 1) ^^^
          gen_key_mix ex_lut0 ex_lut1 (gen_key ex_uid ex_lut0 ex_lut1) 16 1 ∧
      sign_rand_with_key ex_rand ex_uid ex_lut0 = sign_rand_spec ex_rand ex_uid ex_lut0 :=
  ⟨((C3_key_engine ex_uid ex_lut0 ex_lut1 ex_rand ex_uid ex_lut0).1.1 5 (by decide)),
    ((C3_key_engine ex_uid ex_lut0 ex_lut1 ex_rand ex_uid ex_lut0).1.2 16 (by decide)
      (by decide) (by decide) 1 (by decide)),
    (C3_key_engine ex_uid ex_lut0 ex_lut1 ex_rand ex_uid ex_lut0).2⟩

end BwFlasher

/-! ## C10: the two CRC16 routines compute the same function -/

namespace BwFlasher

theorem xor_left_comm (a b c : Nat) : a ^^^ (b ^^^ c) = b ^^^ (a ^^^ c) := by
  rw [← Nat.xor_assoc, Nat.xor_comm a b, Nat.xor_assoc]

theorem xor_xor_self (a b : Nat) : a ^^^ (a ^^^ b) = b := by
  rw [← Nat.xor_assoc, Nat.xor_self, Nat.zero_xor]

theorem crc16_step_iterate_zero (n : Nat) : crc16_bit_step^[n] 0 = 0 := by
  induction n with
  | zero => rfl
  | succ k ih => rw [Function.iterate_succ_apply, show crc16_bit_step 0 = 0 from rfl, ih]

theorem and_0x8000_testBit (x : Nat) : (x &&& 0x8000 ≠ 0) ↔ x.testBit 15 := by
  rw [show (0x8000 : Nat) = 2 ^ 15 from rfl, Nat.and_two_pow]
  cases h : x.testBit 15 <;> simp [h]

theorem crc16_bit_step_eq (x : Nat) :
    crc16_bit_step x = ((x <<< 1) &&& 0xFFFF) ^^^ (if x.testBit 15 then 0x1021 else 0) := by
  unfold crc16_bit_step
  by_cases h : x.testBit 15
  · rw [if_pos ((and_0x8000_testBit x).mpr h), if_pos h, Nat.and_xor_distrib_right]
    congr 1
  · rw [if_neg (fun hc => h ((and_0x8000_testBit x).mp hc)), if_neg h, Nat.xor_zero]

theorem shiftLeft_xor_distrib (x y n : Nat) : (x ^^^ y) <<< n = (x <<< n) ^^^ (y <<< n) := by
  apply Nat.eq_of_testBit_eq
  intro i
  simp only [Nat.testBit_shiftLeft, Nat.testBit_xor]
  cases hd : decide (i ≥ n) <;> simp

theorem crc16_bit_step_xor (x y : Nat) :
    crc16_bit_step (x ^^^ y) = crc16_bit_step x ^^^ crc16_bit_step y := by
  rw [crc16_bit_step_eq, crc16_bit_step_eq, crc16_bit_step_eq, shiftLeft_xor_distrib,
    Nat.and_xor_distrib_right, Nat.testBit_xor]
  cases h1 : x.testBit 15 <;> cases h2 : y.testBit 15 <;>
    simp [Nat.xor_assoc, Nat.xor_comm, xor_left_comm, Nat.xor_self, Nat.xor_zero, xor_xor_self]

theorem crc16_step_iterate_xor (n : Nat) :
    ∀ x y, crc16_bit_step^[n] (x ^^^ y) = crc16_bit_step^[n] x ^^^ crc16_bit_step^[n] y := by
  induction n with
  | zero => intro x y; rfl
  | succ k ih =>
    intro x y
    rw [Function.iterate_succ_apply, Function.iterate_succ_apply, Function.iterate_succ_apply,
      crc16_bit_step_xor, ih]

theorem crc16_bit_step_lt (x : Nat) : crc16_bit_step x < 65536 := by
  unfold crc16_bit_step
  split <;> exact lt_of_le_of_lt Nat.and_le_right (by norm_num)

theorem crc16_step8_lt (x : Nat) : crc16_bit_step^[8] x < 65536 := by
  rw [show (8 : Nat) = 7 + 1 from rfl, Function.iterate_succ_apply']
  exact crc16_bit_step_lt _

set_option maxHeartbeats 2000000 in
theorem crc16_step8_small : ∀ lo, lo < 256 → crc16_bit_step^[8] lo = lo <<< 8 := by decide

theorem hi_lo_decomp (c : Nat) : ((c >>> 8) <<< 8) ^^^ (c &&& 0xFF) = c := by
  rw [show (0xFF : Nat) = 2 ^ 8 - 1 from rfl]
  apply Nat.eq_of_testBit_eq
  intro i
  simp only [Nat.testBit_xor, Nat.testBit_shiftLeft, Nat.testBit_shiftRight, Nat.testBit_and,
    Nat.testBit_two_pow_sub_one]
  rcases Nat.lt_or_ge i 8 with h | h
  · simp [Nat.not_le.mpr h, h]
  · have h8 : 8 + (i - 8) = i := by omega
    simp [h, Nat.not_lt.mpr h, h8]

theorem shiftAnd_FF00 (c : Nat) : (c <<< 8) &&& 0xFF00 = (c &&& 0xFF) <<< 8 := by
  rw [show (0xFF00 : Nat) = (2 ^ 8 - 1) <<< 8 from rfl, show (0xFF : Nat) = 2 ^ 8 - 1 from rfl]
  apply Nat.eq_of_testBit_eq
  intro i
  simp only [Nat.testBit_and, Nat.testBit_shiftLeft, Nat.testBit_two_pow_sub_one]
  rcases Nat.lt_or_ge i 8 with h | h
  · simp [Nat.not_le.mpr h]
  · simp [h]

theorem mask_0xFF_small (x : Nat) (h : x < 256) : x &&& 0xFF = x := by
  rw [show (0xFF : Nat) = 2 ^ 8 - 1 from rfl, Nat.and_pow_two_sub_one_eq_mod,
    Nat.mod_eq_of_lt h]

theorem mask_0xFFFF_small (x : Nat) (h : x < 65536) : x &&& 0xFFFF = x := by
  rw [show (0xFFFF : Nat) = 2 ^ 16 - 1 from rfl, Nat.and_pow_two_sub_one_eq_mod,
    Nat.mod_eq_of_lt h]

/-- The byte step of `crc16_standard` equals the table-driven byte step of
`crc_hqx`. -/
theorem crc16_byte_eq_hqx (c b : Nat) (hc : c < 65536) (hb : b < 256) :
    crc16_bit_step^[8] (c ^^^ (b <<< 8)) =
      ((c <<< 8) &&& 0xFF00) ^^^ crc_hqx_table (((c >>> 8) &&& 0xFF) ^^^ b) := by
  have hhi : c >>> 8 < 256 := by
    rw [Nat.shiftRight_eq_div_pow]
    omega
  have hlo : c &&& 0xFF < 256 := lt_of_le_of_lt Nat.and_le_right (by norm_num)
  have hidx : (c >>> 8) ^^^ b < 256 := by
    have := Nat.xor_lt_two_pow (n := 8) hhi hb
    simpa using this
  calc crc16_bit_step^[8] (c ^^^ (b <<< 8))
      = crc16_bit_step^[8] ((c &&& 0xFF) ^^^ (((c >>> 8) ^^^ b) <<< 8)) := by
        congr 1
        conv_lhs => rw [← hi_lo_decomp c]
        rw [shiftLeft_xor_distrib]
        simp [Nat.xor_assoc, Nat.xor_comm, xor_left_comm]
    _ = crc16_bit_step^[8] (c &&& 0xFF) ^^^ crc16_bit_step^[8] (((c >>> 8) ^^^ b) <<< 8) :=
        crc16_step_iterate_xor 8 _ _
    _ = ((c &&& 0xFF) <<< 8) ^^^ crc_hqx_table ((c >>> 8) ^^^ b) := by
        rw [crc16_step8_small _ hlo]
        unfold crc_hqx_table
        rw [mask_0xFF_small _ hidx]
    _ = ((c <<< 8) &&& 0xFF00) ^^^ crc_hqx_table (((c >>> 8) &&& 0xFF) ^^^ b) := by
        rw [shiftAnd_FF00, mask_0xFF_small _ hhi]

theorem ref_step_eq (b : Nat) (c k : Nat) :
    (if c.testBit 15 != b.testBit (7 - k) then ((c <<< 1) &&& 0xFFFF) ^^^ 0x1021
      else (c <<< 1) &&& 0xFFFF) =
      crc16_bit_step c ^^^ (if b.testBit (7 - k) then 0x1021 else 0) := by
  rw [crc16_bit_step_eq]
  cases h1 : c.testBit 15 <;> cases h2 : b.testBit (7 - k) <;>
    simp [Nat.xor_assoc, Nat.xor_self, Nat.xor_zero]

theorem fold_linear_aux (inj : Nat → Nat) (l : List Nat) :
    ∀ c, l.foldl (fun c k => crc16_bit_step c ^^^ inj k) c =
      crc16_bit_step^[l.length] c ^^^ l.foldl (fun c k => crc16_bit_step c ^^^ inj k) 0 := by
  induction l with
  | nil => intro c; simp
  | cons k t ih =>
    intro c
    simp only [List.foldl_cons, List.length_cons]
    rw [ih (crc16_bit_step c ^^^ inj k), ih (crc16_bit_step 0 ^^^ inj k),
      crc16_step_iterate_xor, crc16_step_iterate_xor,
      show crc16_bit_step 0 = 0 from rfl, crc16_step_iterate_zero, Nat.zero_xor,
      Function.iterate_succ_apply]
    simp [Nat.xor_assoc, Nat.xor_comm, xor_left_comm]

set_option maxHeartbeats 2000000 in
theorem ref_byte_base : ∀ b, b < 256 →
    (List.range 8).foldl (fun c k =>
      if c.testBit 15 != b.testBit (7 - k) then ((c <<< 1) &&& 0xFFFF) ^^^ 0x1021
      else (c <<< 1) &&& 0xFFFF) 0 = crc16_bit_step^[8] (b <<< 8) := by decide

/-- The byte step of `crc16_xmodem_ref` equals the byte step of
`crc16_standard`. -/
theorem ref_byte_eq (c b : Nat) (hb : b < 256) :
    (List.range 8).foldl (fun c k =>
        if c.testBit 15 != b.testBit (7 - k) then ((c <<< 1) &&& 0xFFFF) ^^^ 0x1021
        else (c <<< 1) &&& 0xFFFF) c =
      crc16_bit_step^[8] (c ^^^ (b <<< 8)) := by
  have hcong := foldl_step_congr
    (fun c k =>
      if c.testBit 15 != b.testBit (7 - k) then ((c <<< 1) &&& 0xFFFF) ^^^ 0x1021
      else (c <<< 1) &&& 0xFFFF)
    (fun c k => crc16_bit_step c ^^^ (if b.testBit (7 - k) then 0x1021 else 0))
    (List.range 8) (fun c k _ => ref_step_eq b c k)
  rw [hcong c, fold_linear_aux, ← hcong 0, ref_byte_base b hb, List.length_range,
    crc16_step_iterate_xor]

/-- Joint fold invariant: the three byte-at-a-time folds agree and keep their
accumulator below `2^16`. -/
theorem crc_folds_eq (d : List Nat) :
    ∀ c, (∀ b ∈ d, b < 256) → c < 65536 →
      d.foldl (fun crc byte => crc16_bit_step^[8] (crc ^^^ (byte <<< 8))) c =
          d.foldl (fun crc byte =>
            ((crc <<< 8) &&& 0xFF00) ^^^ crc_hqx_table (((crc >>> 8) &&& 0xFF) ^^^ byte)) c ∧
        d.foldl (fun crc byte => crc16_bit_step^[8] (crc ^^^ (byte <<< 8))) c =
          d.foldl (fun crc byte =>
            (List.range 8).foldl (fun c k =>
              if c.testBit 15 != byte.testBit (7 - k) then ((c <<< 1) &&& 0xFFFF) ^^^ 0x1021
              else (c <<< 1) &&& 0xFFFF) crc) c ∧
        d.foldl (fun crc byte => crc16_bit_step^[8] (crc ^^^ (byte <<< 8))) c < 65536 := by
  induction d with
  | nil => exact fun c _ hc => ⟨rfl, rfl, hc⟩
  | cons b t ih =>
    intro c hbytes hc
    have hb : b < 256 := hbytes b (List.mem_cons_self b t)
    have ht : ∀ x ∈ t, x < 256 := fun x hx => hbytes x (List.mem_cons_of_mem b hx)
    obtain ⟨ih1, ih2, ih3⟩ := ih (crc16_bit_step^[8] (c ^^^ (b <<< 8))) ht (crc16_step8_lt _)
    refine ⟨?_, ?_, ?_⟩
    · simp only [List.foldl_cons]
      rw [← crc16_byte_eq_hqx c b hc hb]
      exact ih1
    · simp only [List.foldl_cons]
      rw [ref_byte_eq c b hb]
      exact ih2
    · simp only [List.foldl_cons]
      exact ih3

/-- Claim C10: `LeqiFlasher.crc16_standard` and `calculate_crc16`
(`binascii.crc_hqx(·, 0)`) compute the same function on byte sequences, and
both equal the CRC-16/XMODEM reference (polynomial 0x1021, init 0x0000, no
reflection, no final XOR, bits MSB-first). -/
theorem C10_crc16_equivalence (d : List Nat) (hd : ∀ b ∈ d, b < 256) :
    crc16_standard d = calculate_crc16 d ∧ crc16_standard d = crc16_xmodem_ref d := by
  obtain ⟨h1, h2, h3⟩ := crc_folds_eq d 0 hd (by norm_num)
  unfold crc16_standard calculate_crc16 crc_hqx crc16_xmodem_ref
  rw [mask_0xFFFF_small _ h3]
  constructor
  · rw [show (0 : Nat) &&& 0xFFFF = 0 from rfl]
    exact h1
  · exact h2

theorem C10_witness :
    crc16_standard check_vector = calculate_crc16 check_vector ∧
      crc16_standard check_vector = crc16_xmodem_ref check_vector ∧
      crc16_standard check_vector = 0x31C3 :=
  ⟨(C10_crc16_equivalence check_vector (by decide)).1,
    (C10_crc16_equivalence check_vector (by decide)).2, by decide⟩

end BwFlasher

/-! ## C5: the cumulative CRC32 reported to wr_info -/

namespace BwFlasher

theorem dfu_padded_length (fw : List Nat) :
    (dfu_padded fw).length = total_packets fw * PACKET_SIZE := by
  unfold dfu_padded total_packets PACKET_SIZE
  rw [List.length_append, List.length_replicate]
  have : fw.length ≤ ((fw.length + 0x800 - 1) / 0x800) * 0x800 := by omega
  omega

/-- The padded packet of round `k` is exactly the `k`-th `PACKET_SIZE` window
of the globally padded firmware. -/
theorem pad_packet_eq_padded_window (fw : List Nat) (k : Nat) :
    pad_packet ((fw.drop (k * PACKET_SIZE)).take PACKET_SIZE) =
      ((dfu_padded fw).drop (k * PACKET_SIZE)).take PACKET_SIZE := by
  have hPS : PACKET_SIZE = 2048 := rfl
  have hTlo : fw.length ≤ total_packets fw * 2048 := by
    unfold total_packets
    rw [hPS]
    omega
  have hThi : total_packets fw * 2048 < fw.length + 2048 := by
    unfold total_packets
    rw [hPS]
    omega
  have hpadded : dfu_padded fw =
      fw ++ List.replicate (total_packets fw * 2048 - fw.length) 0xFF := by
    unfold dfu_padded
    rw [hPS]
  rw [hPS, hpadded]
  rcases Nat.lt_or_ge (k * 2048) fw.length with hk | hk
  · -- data round: the window still overlaps the firmware
    have hs : (fw.drop (k * 2048)).take 2048 ≠ [] := by
      rw [← List.length_pos_iff_ne_nil, List.length_take, List.length_drop]
      omega
    have hprod : (k + 1) * 2048 ≤ total_packets fw * 2048 :=
      Nat.mul_le_mul_right _ (by omega)
    unfold pad_packet
    rw [if_neg hs, hPS, List.drop_append_eq_append_drop, List.take_append_eq_append_take,
      show k * 2048 - fw.length = 0 from by omega, List.drop_replicate, Nat.sub_zero,
      List.take_replicate]
    congr 1
    congr 1
    rw [List.length_take, List.length_drop]
    omega
  · -- empty round: the window is past the end of both buffers
    have h1 : (fw.drop (k * 2048)).take 2048 = [] := by
      rw [List.drop_eq_nil_of_le (by omega), List.take_nil]
    have hk2 : total_packets fw * 2048 ≤ k * 2048 :=
      Nat.mul_le_mul_right _ (by omega)
    have hlen :
        (fw ++ List.replicate (total_packets fw * 2048 - fw.length) 0xFF).length ≤ k * 2048 := by
      rw [List.length_append, List.length_replicate]
      omega
    rw [h1, show pad_packet [] = [] from rfl, List.drop_eq_nil_of_le hlen, List.take_nil]

theorem dfu_rounds_aux_inv (fw : List Nat) :
    ∀ (fuel k : Nat) (ds : List Nat), ds = (dfu_padded fw).take (k * PACKET_SIZE) →
      ∀ e ∈ dfu_rounds_aux fw k ds fuel,
        e.2.2 = (dfu_padded fw).take (e.1 * PACKET_SIZE) ∧
          e.2.1 = calculate_crc32 e.2.2 := by
  intro fuel
  induction fuel with
  | zero => intro k ds _ e he; cases he
  | succ f ih =>
    intro k ds hds e he
    have hds' : ds ++ pad_packet ((fw.drop (k * PACKET_SIZE)).take PACKET_SIZE) =
        (dfu_padded fw).take ((k + 1) * PACKET_SIZE) := by
      rw [hds, pad_packet_eq_padded_window, show (k + 1) * PACKET_SIZE =
        k * PACKET_SIZE + PACKET_SIZE from by ring, List.take_add]
    simp only [dfu_rounds_aux] at he
    rcases List.mem_cons.mp he with heq | htail
    · subst heq
      exact ⟨hds', by rw [hds']⟩
    · by_cases hp : pad_packet ((fw.drop (k * PACKET_SIZE)).take PACKET_SIZE) = []
      · simp [hp] at htail
      · rw [if_neg hp] at htail
        exact ih (k + 1) _ hds' e htail

/-- Claim C5: at every WR_INFO emission of a DFU run, the reported value is
`CRC32(data_sent)`, and `data_sent` equals the prefix of the firmware padded
to a `PACKET_SIZE` boundary with `0xFF`, truncated to the bytes already
committed (`n_packets_sent * PACKET_SIZE`, capped at the padded length by
`List.take`). -/
theorem C5_wr_info_crc32 (fw : List Nat) :
    ∀ e ∈ dfu_wr_info_trace fw,
      e.2.2 = (dfu_padded fw).take (e.1 * PACKET_SIZE) ∧
        e.2.1 = calculate_crc32 ((dfu_padded fw).take (e.1 * PACKET_SIZE)) := by
  intro e he
  obtain ⟨h1, h2⟩ := dfu_rounds_aux_inv fw (total_packets fw + 1) 0 [] (by simp) e he
  exact ⟨h1, by rw [h2, h1]⟩

theorem C5_witness :
    (1, 0, ([] : List Nat)) ∈ dfu_wr_info_trace [] ∧
      (0 : Nat) = calculate_crc32 ((dfu_padded []).take (1 * PACKET_SIZE)) :=
  ⟨by decide, (C5_wr_info_crc32 [] (1, 0, []) (by decide)).2⟩

end BwFlasher

/-! ## C7: the progress values emitted by run() -/

namespace BwFlasher

theorem pad_packet_eq_nil_iff (p : List Nat) : pad_packet p = [] ↔ p = [] := by
  unfold pad_packet
  by_cases h : p = []
  · rw [if_pos h]
  · rw [if_neg h]
    constructor
    · intro hc
      exact absurd (List.append_eq_nil.mp hc).1 h
    · intro hp
      exact absurd hp h

theorem dfu_slice_empty_iff (fw : List Nat) (k : Nat) :
    ((fw.drop (k * PACKET_SIZE)).take PACKET_SIZE = []) ↔ fw.length ≤ k * PACKET_SIZE := by
  rw [List.take_eq_nil_iff]
  constructor
  · rintro (h | h)
    · exact absurd h (by decide)
    · have := congrArg List.length h
      rw [List.length_drop] at this
      simp only [List.length_nil] at this
      omega
  · intro h
    exact Or.inr (List.drop_eq_nil_of_le h)

theorem dfu_progress_mono (T : Nat) {a b : Nat} (h : a ≤ b) :
    dfu_progress T a ≤ dfu_progress T b :=
  Nat.div_le_div_right (Nat.mul_le_mul_right _ h)

theorem dfu_progress_zero (T : Nat) : dfu_progress T 0 = 0 := by
  unfold dfu_progress
  rw [Nat.zero_mul, Nat.zero_div]

theorem dfu_progress_final (T : Nat) (hT : 0 < T) :
    dfu_progress T (T + 1) = 100 + 100 / T := by
  unfold dfu_progress
  rw [show (T + 1) * 100 = 100 + T * 100 from by ring, Nat.add_mul_div_left _ _ hT,
    Nat.add_comm]

theorem pairwise_le_replicate (n x : Nat) : (List.replicate n x).Pairwise (· ≤ ·) := by
  induction n with
  | zero => simp
  | succ k ih =>
    rw [List.replicate_succ, List.pairwise_cons]
    exact ⟨fun b hb => le_of_eq (List.mem_replicate.mp hb).2.symm, ih⟩

theorem dfu_round_progress_spec (fw : List Nat) :
    ∀ (fuel k : Nat), k ≤ total_packets fw → total_packets fw + 1 ≤ k + fuel →
      (dfu_round_progress fw k fuel ≠ [] ∧
        (dfu_round_progress fw k fuel).Pairwise (· ≤ ·)) ∧
        (∀ p ∈ dfu_round_progress fw k fuel,
          dfu_progress (total_packets fw) k ≤ p ∧
            p ≤ dfu_progress (total_packets fw) (total_packets fw + 1)) ∧
        (dfu_round_progress fw k fuel).getLast? =
          some (dfu_progress (total_packets fw) (total_packets fw + 1)) := by
  intro fuel
  induction fuel with
  | zero => intro k hk hfuel; omega
  | succ f ih =>
    intro k hk hfuel
    have hPS : PACKET_SIZE = 2048 := rfl
    have hTdef : total_packets fw = (fw.length + 2048 - 1) / 2048 := rfl
    by_cases hkT : k < total_packets fw
    · -- data round: the packet is non-empty and the recursion continues
      have hne : pad_packet ((fw.drop (k * PACKET_SIZE)).take PACKET_SIZE) ≠ [] := by
        rw [Ne, pad_packet_eq_nil_iff, dfu_slice_empty_iff, hPS]
        omega
      obtain ⟨⟨hne', hsorted⟩, hbounds, hlast⟩ := ih (k + 1) (by omega) (by omega)
      simp only [dfu_round_progress]
      rw [if_neg hne]
      have hk1 : dfu_progress (total_packets fw) k ≤
          dfu_progress (total_packets fw) (k + 1) := dfu_progress_mono _ (by omega)
      have hk2 : dfu_progress (total_packets fw) (k + 1) ≤
          dfu_progress (total_packets fw) (total_packets fw + 1) :=
        dfu_progress_mono _ (by omega)
      refine ⟨⟨by simp, ?_⟩, ?_, ?_⟩
      · rw [List.pairwise_cons, List.pairwise_cons, List.pairwise_cons]
        refine ⟨?_, ?_, ?_, hsorted⟩
        · intro b hb
          rcases List.mem_cons.mp hb with rfl | hb'
          · exact hk1
          rcases List.mem_cons.mp hb' with rfl | hb''
          · exact hk1
          · exact le_trans hk1 (hbounds b hb'').1
        · intro b hb
          rcases List.mem_cons.mp hb with rfl | hb'
          · exact le_refl _
          · exact (hbounds b hb').1
        · intro b hb
          exact (hbounds b hb).1
      · intro p hp
        rcases List.mem_cons.mp hp with rfl | hp'
        · exact ⟨le_refl _, le_trans hk1 hk2⟩
        rcases List.mem_cons.mp hp' with rfl | hp''
        · exact ⟨hk1, hk2⟩
        rcases List.mem_cons.mp hp'' with rfl | hp'''
        · exact ⟨hk1, hk2⟩
        · exact ⟨le_trans hk1 (hbounds p hp''').1, (hbounds p hp''').2⟩
      · have hcons : ∀ (x : Nat) (l : List Nat), l ≠ [] → (x :: l).getLast? = l.getLast? := by
          intro x l hl
          cases l with
          | nil => exact absurd rfl hl
          | cons y t => exact List.getLast?_cons_cons
        rw [hcons _ _ (by simp [hne']), hcons _ _ (by simp [hne']), hcons _ _ hne']
        exact hlast
    · -- final round: k = total_packets, the packet is empty
      have hkeq : k = total_packets fw := by omega
      have hemp : pad_packet ((fw.drop (k * PACKET_SIZE)).take PACKET_SIZE) = [] := by
        rw [pad_packet_eq_nil_iff, dfu_slice_empty_iff, hPS, hkeq]
        omega
      simp only [dfu_round_progress]
      rw [if_pos hemp, hkeq]
      have hstep : dfu_progress (total_packets fw) (total_packets fw) ≤
          dfu_progress (total_packets fw) (total_packets fw + 1) :=
        dfu_progress_mono _ (by omega)
      refine ⟨⟨by simp, ?_⟩, ?_, ?_⟩
      · rw [List.pairwise_cons, List.pairwise_cons, List.pairwise_cons]
        refine ⟨?_, ?_, by simp, by simp⟩
        · intro b hb
          rcases List.mem_cons.mp hb with rfl | hb'
          · exact hstep
          rcases List.mem_cons.mp hb' with rfl | hb''
          · exact hstep
          · cases hb''
        · intro b hb
          rcases List.mem_cons.mp hb with rfl | hb'
          · exact le_refl _
          · cases hb'
      · intro p hp
        rcases List.mem_cons.mp hp with rfl | hp'
        · exact ⟨le_refl _, hstep⟩
        rcases List.mem_cons.mp hp' with rfl | hp''
        · exact ⟨hstep, le_refl _⟩
        rcases List.mem_cons.mp hp'' with rfl | hp'''
        · exact ⟨hstep, le_refl _⟩
        · cases hp'''
      · rfl

end BwFlasher

namespace BwFlasher

/-- Claim C7 counterexample: for a one-byte firmware (`total_packets = 1`)
the run emits the progress value 200 (= `⌊100·(total+1)/total⌋` after the
final empty round) and terminates at 200, refuting "lies within 0..=100 and
terminates at 100". -/
theorem C7_counterexample :
    200 ∈ dfu_progress_trace [0] ∧ (dfu_progress_trace [0]).getLast? = some 200 := by
  decide

/-- Claim C7 amended: each emission equals
`⌊100 · n_packets_sent / total_packets⌋` (exact-arithmetic model of
`int(n / total * 100)`), where `n_packets_sent` reaches `total_packets + 1`
through the final empty NVM_WRITE/SEND_FW/WR_INFO round; the emitted sequence
is monotonically non-decreasing and bounded by `100 + ⌊100 / total⌋`, and it
terminates at `100 + ⌊100 / total⌋` — which equals 100 only when
`total_packets > 100`. -/
theorem C7_progress_trace_amended (fw : List Nat) (hL : 0 < fw.length) :
    (dfu_progress_trace fw).Pairwise (· ≤ ·) ∧
      (∀ p ∈ dfu_progress_trace fw, p ≤ 100 + 100 / total_packets fw) ∧
      (dfu_progress_trace fw).getLast? = some (100 + 100 / total_packets fw) ∧
      (100 + 100 / total_packets fw = 100 ↔ 100 < total_packets fw) := by
  have hT : 0 < total_packets fw := by
    unfold total_packets PACKET_SIZE
    omega
  have hfin := dfu_progress_final (total_packets fw) hT
  obtain ⟨⟨hne, hsorted⟩, hbounds, hlast⟩ :=
    dfu_round_progress_spec fw (total_packets fw + 1) 0 (by omega) (by omega)
  have hlast3 : ∀ x : Nat, (List.replicate 3 x).getLast? = some x := fun x => rfl
  have hub : ∀ p ∈ dfu_round_progress fw 0 (total_packets fw + 1),
      p ≤ 100 + 100 / total_packets fw := by
    intro p hp
    rw [← hfin]
    exact (hbounds p hp).2
  have htr : dfu_progress_trace fw =
      List.replicate 6 (dfu_progress (total_packets fw) 0) ++
        dfu_round_progress fw 0 (total_packets fw + 1) ++
        List.replicate 3 (dfu_progress (total_packets fw) (total_packets fw + 1)) := rfl
  rw [htr]
  refine ⟨?_, ?_, ?_, ?_⟩
  · rw [List.pairwise_append]
    refine ⟨?_, pairwise_le_replicate 3 _, ?_⟩
    · rw [List.pairwise_append]
      refine ⟨pairwise_le_replicate 6 _, hsorted, ?_⟩
      intro a ha b _
      rw [(List.mem_replicate.mp ha).2, dfu_progress_zero]
      exact Nat.zero_le b
    · intro a ha b hb
      rw [(List.mem_replicate.mp hb).2]
      rcases List.mem_append.mp ha with h6 | hR
      · rw [(List.mem_replicate.mp h6).2, dfu_progress_zero]
        exact Nat.zero_le _
      · exact (hbounds a hR).2
  · intro p hp
    rcases List.mem_append.mp hp with hAR | h3
    · rcases List.mem_append.mp hAR with h6 | hR
      · rw [(List.mem_replicate.mp h6).2, dfu_progress_zero]
        exact Nat.zero_le _
      · exact hub p hR
    · rw [(List.mem_replicate.mp h3).2, hfin]
  · have h3ne :
        List.replicate 3 (dfu_progress (total_packets fw) (total_packets fw + 1)) ≠ [] := by
      simp
    rw [List.getLast?_append_of_ne_nil _ h3ne, hlast3, hfin]
  · have hiff : (100 + 100 / total_packets fw = 100) ↔ 100 / total_packets fw = 0 := by
      omega
    rw [hiff, Nat.div_eq_zero_iff hT]

theorem C7_witness :
    (dfu_progress_trace [0]).Pairwise (· ≤ ·) ∧
      (dfu_progress_trace [0]).getLast? = some (100 + 100 / total_packets [0]) :=
  ⟨(C7_progress_trace_amended [0] (by decide)).1,
    (C7_progress_trace_amended [0] (by decide)).2.2.1⟩

/-! ## C6: LEQI firmware size and data packets -/

theorem skip_aa_ge (d : Nat → Nat) (n : Nat) :
    ∀ fuel i, i ≤ skip_aa d n fuel i := by
  intro fuel
  induction fuel with
  | zero => intro i; exact le_refl i
  | succ f ih =>
    intro i
    simp only [skip_aa]
    by_cases hc : i < n ∧ d i = 0xAA
    · rw [if_pos hc]
      exact le_trans (Nat.le_succ i) (ih (i + 1))
    · rw [if_neg hc]

theorem skip_aa_spec (d : Nat → Nat) (n : Nat) :
    ∀ fuel i, i ≤ n → n - i ≤ fuel →
      skip_aa d n fuel i ≤ n ∧
        (∀ k, i ≤ k → k < skip_aa d n fuel i → d k = 0xAA) ∧
        (skip_aa d n fuel i = n ∨ d (skip_aa d n fuel i) ≠ 0xAA) := by
  intro fuel
  induction fuel with
  | zero =>
    intro i hin hfuel
    have hi : i = n := by omega
    simp only [skip_aa]
    exact ⟨hin, fun k hk1 hk2 => absurd hk2 (by omega), Or.inl hi⟩
  | succ f ih =>
    intro i hin hfuel
    simp only [skip_aa]
    by_cases hc : i < n ∧ d i = 0xAA
    · rw [if_pos hc]
      obtain ⟨h2, h3, h4⟩ := ih (i + 1) (by omega) (by omega)
      refine ⟨h2, ?_, h4⟩
      intro k hk1 hk2
      rcases Nat.eq_or_lt_of_le hk1 with heq | hlt
      · exact heq ▸ hc.2
      · exact h3 k hlt hk2
    · rw [if_neg hc]
      refine ⟨hin, fun k hk1 hk2 => absurd hk2 (by omega), ?_⟩
      rcases Nat.eq_or_lt_of_le hin with heq | hlt
      · exact Or.inl heq
      · exact Or.inr (fun hd => hc ⟨hlt, hd⟩)


theorem calc_aux_spec (d : Nat → Nat) (n : Nat) :
    ∀ fuel i maxLen maxEnd, i ≤ n → n - i ≤ fuel →
      (∀ s e, IsRun d n s e → s < i → e ≤ i) →
      (i = n ∨ d i ≠ 0xAA ∨ i = 0 ∨ d (i - 1) ≠ 0xAA) →
      scan_acc_ok d n i maxLen maxEnd →
      scan_acc_ok d n n (calc_fw_size_aux d n fuel i maxLen maxEnd).1
        (calc_fw_size_aux d n fuel i maxLen maxEnd).2 := by
  intro fuel
  induction fuel with
  | zero =>
    intro i ml me hin hfuel _ _ hacc
    have hi : i = n := by omega
    simp only [calc_fw_size_aux]
    exact hi ▸ hacc
  | succ f ih =>
    intro i ml me hin hfuel hInv1 hInv2 hacc
    simp only [calc_fw_size_aux]
    by_cases hlt : i < n
    · rw [if_pos hlt]
      by_cases hAA : d i = 0xAA
      · rw [if_pos hAA]
        have hge := skip_aa_ge d n (n - i) i
        have hsp := skip_aa_spec d n (n - i) i (le_of_lt hlt) (le_refl _)
        obtain ⟨e, hE⟩ : ∃ e, skip_aa d n (n - i) i = e := ⟨_, rfl⟩
        rw [hE] at hge hsp ⊢
        obtain ⟨he2, he3, he4⟩ := hsp
        have hieq : i < e := by
          rcases Nat.eq_or_lt_of_le hge with heq | h
          · exfalso
            rcases he4 with h4 | h4
            · omega
            · exact h4 (heq ▸ hAA)
          · exact h
        have hleft : i = 0 ∨ d (i - 1) ≠ 0xAA := by
          rcases hInv2 with h | h | h | h
          · exact absurd h (by omega)
          · exact absurd hAA h
          · exact Or.inl h
          · exact Or.inr h
        have hrun : IsRun d n i e := ⟨hieq, he2, he3, hleft, he4⟩
        have hclass : ∀ s e2, IsRun d n s e2 → e2 ≤ e → e2 ≤ i ∨ (s = i ∧ e2 = e) := by
          intro s e2 hr hle
          by_cases hei : e2 ≤ i
          · exact Or.inl hei
          · right
            have hie2 : i < e2 := by omega
            have hs2 : i ≤ s := by
              by_contra hs
              exact absurd (hInv1 s e2 hr (by omega)) (by omega)
            have hr1 := hr.1
            have hsi : s = i := by
              by_contra hne
              have hdprev : d (s - 1) = 0xAA := he3 (s - 1) (by omega) (by omega)
              rcases hr.2.2.2.1 with h0 | hd
              · omega
              · exact hd hdprev
            refine ⟨hsi, ?_⟩
            by_contra hnee
            have hlt2 : e2 < e := by omega
            have hdAA : d e2 = 0xAA := he3 e2 (by omega) hlt2
            rcases hr.2.2.2.2 with h0 | hd
            · have h21 := hr.2.1
              omega
            · exact hd hdAA
        have hInv1e : ∀ s e2, IsRun d n s e2 → s < e → e2 ≤ e := by
          intro s e2 hr hs2
          by_contra hgt
          have hdAA : d e = 0xAA := hr.2.2.1 e (le_of_lt hs2) (by omega)
          rcases he4 with h4 | h4
          · have h21 := hr.2.1
            omega
          · exact h4 hdAA
        have hInv2e : e = n ∨ d e ≠ 0xAA ∨ e = 0 ∨ d (e - 1) ≠ 0xAA := by
          rcases he4 with h4 | h4
          · exact Or.inl h4
          · exact Or.inr (Or.inl h4)
        by_cases hupd : e - i > ml ∧ e - i > 500
        · rw [if_pos hupd]
          refine ih e (e - i) e he2 (by omega) hInv1e hInv2e ?_
          have hmaxall : ∀ s e2, IsRun d n s e2 → e2 ≤ e → e2 - s ≤ e - i := by
            intro s e2 hr hle
            rcases hclass s e2 hr hle with hsml | ⟨hs, he⟩
            · rcases hacc with ⟨hml0, hme0, hbound⟩ | ⟨hml, hmei, hwit, hbound⟩
              · exact le_trans (hbound s e2 hr hsml) (by omega)
              · exact le_trans (hbound s e2 hr hsml) (by omega)
            · subst hs
              subst he
              exact le_refl _
          exact Or.inr ⟨hupd.2, le_refl e, ⟨i, hrun, rfl⟩, hmaxall⟩
        · rw [if_neg hupd]
          refine ih e ml me he2 (by omega) hInv1e hInv2e ?_
          have hsmall : e - i ≤ ml ∨ e - i ≤ 500 := by
            by_cases h1 : e - i ≤ ml
            · exact Or.inl h1
            · right
              by_contra h2
              exact hupd ⟨by omega, by omega⟩
          rcases hacc with ⟨hml0, hme0, hbound⟩ | ⟨hml, hmei, hwit, hbound⟩
          · refine Or.inl ⟨hml0, hme0, ?_⟩
            intro s e2 hr hle
            rcases hclass s e2 hr hle with hsml | ⟨hs, he⟩
            · exact hbound s e2 hr hsml
            · subst hs
              subst he
              rcases hsmall with h | h
              · omega
              · exact h
          · refine Or.inr ⟨hml, le_trans hmei hge, hwit, ?_⟩
            intro s e2 hr hle
            rcases hclass s e2 hr hle with hsml | ⟨hs, he⟩
            · exact hbound s e2 hr hsml
            · subst hs
              subst he
              rcases hsmall with h | h
              · exact h
              · omega
      · rw [if_neg hAA]
        refine ih (i + 1) ml me (by omega) (by omega) ?_ ?_ ?_
        · intro s e2 hr hs2
          by_cases hsi : s < i
          · have := hInv1 s e2 hr hsi
            omega
          · have hs3 : s = i := by omega
            exact absurd (hs3 ▸ hr.2.2.1 s (le_refl s) hr.1) hAA
        · exact Or.inr (Or.inr (Or.inr (by simpa using hAA)))
        · have hend : ∀ s e2, IsRun d n s e2 → e2 ≤ i + 1 → e2 ≤ i := by
            intro s e2 hr hle
            by_contra h
            have he2i : e2 = i + 1 := by omega
            obtain ⟨h1, _, h3, _, _⟩ := hr
            exact hAA (h3 i (by omega) (by omega))
          rcases hacc with ⟨hml0, hme0, hbound⟩ | ⟨hml, hmei, hwit, hbound⟩
          · exact Or.inl ⟨hml0, hme0,
              fun s e2 hr hle => hbound s e2 hr (hend s e2 hr hle)⟩
          · exact Or.inr ⟨hml, by omega, hwit,
              fun s e2 hr hle => hbound s e2 hr (hend s e2 hr hle)⟩
    · rw [if_neg hlt]
      have hi : i = n := by omega
      exact hi ▸ hacc


theorem calculate_firmware_size_spec (d : Nat → Nat) (n : Nat) :
    ((∃ s e, IsRun d n s e ∧ 500 < e - s) →
        ∃ s e, IsRun d n s e ∧ 500 < e - s ∧
          (∀ s2 e2, IsRun d n s2 e2 → e2 - s2 ≤ e - s) ∧
          calculate_firmware_size d n = ((e + 127) / 128) * 128) ∧
      ((∀ s e, IsRun d n s e → e - s ≤ 500) → calculate_firmware_size d n = n) := by
  have hacc0 : scan_acc_ok d n 0 0 0 := by
    refine Or.inl ⟨rfl, rfl, ?_⟩
    intro s e hr hle
    have h1 := hr.1
    omega
  have hmain := calc_aux_spec d n n 0 0 0 (Nat.zero_le n) (le_refl _)
    (fun s e _ hs => absurd hs (by omega)) (Or.inr (Or.inr (Or.inl rfl))) hacc0
  have hcalc : calculate_firmware_size d n =
      if 0 < (calc_fw_size_aux d n n 0 0 0).2 then
        (((calc_fw_size_aux d n n 0 0 0).2 + 127) / 128) * 128
      else n := rfl
  constructor
  · rintro ⟨s0, e0, hr0, hbig0⟩
    rcases hmain with ⟨hml0, hme0, hbound⟩ | ⟨hml, hme, ⟨s1, hr1, hlen1⟩, hbound⟩
    · exact absurd (hbound s0 e0 hr0 hr0.2.1) (by omega)
    · have hpos : 0 < (calc_fw_size_aux d n n 0 0 0).2 := by
        have h1 := hr1.1
        omega
      refine ⟨s1, (calc_fw_size_aux d n n 0 0 0).2, hr1, by omega, ?_, ?_⟩
      · intro s2 e2 hr2
        have := hbound s2 e2 hr2 hr2.2.1
        omega
      · rw [hcalc, if_pos hpos]
  · intro hsmall
    rcases hmain with ⟨hml0, hme0, hbound⟩ | ⟨hml, hme, ⟨s1, hr1, hlen1⟩, hbound⟩
    · rw [hcalc, if_neg (by omega)]
    · exact absurd (hsmall s1 _ hr1) (by omega)

theorem leqi_aux_nil (d : Nat → Nat) (n fwSize offset : Nat) (h : fwSize ≤ offset) :
    ∀ fuel, leqi_data_packets_aux d n fwSize offset fuel = [] := by
  intro fuel
  cases fuel with
  | zero => rfl
  | succ f =>
    simp only [leqi_data_packets_aux]
    rw [if_neg (by omega)]

theorem leqi_packets_aux_spec (d : Nat → Nat) (n fwSize : Nat) :
    ∀ fuel k, fwSize - k * 128 ≤ fuel →
      (leqi_data_packets_aux d n fwSize (k * 128) fuel).length =
          (fwSize - k * 128 + 127) / 128 ∧
        ∀ t, (leqi_data_packets_aux d n fwSize (k * 128) fuel)[t]? =
          if (k + t) * 128 < fwSize then
            some (leqi_data_packet d n fwSize ((k + t) * 128))
          else none := by
  intro fuel
  induction fuel with
  | zero =>
    intro k hf
    constructor
    · simp only [leqi_data_packets_aux, List.length_nil]
      omega
    · intro t
      simp only [leqi_data_packets_aux, List.getElem?_nil]
      rw [if_neg (by omega)]
  | succ f ih =>
    intro k hf
    by_cases hk : k * 128 < fwSize
    · have hcons : leqi_data_packets_aux d n fwSize (k * 128) (f + 1) =
          leqi_data_packet d n fwSize (k * 128) ::
            leqi_data_packets_aux d n fwSize (min (k * 128 + 128) fwSize) f := by
        simp only [leqi_data_packets_aux]
        rw [if_pos hk]
      by_cases hk1 : (k + 1) * 128 ≤ fwSize
      · have hmin : min (k * 128 + 128) fwSize = (k + 1) * 128 := by omega
        rw [hcons, hmin]
        obtain ⟨ihlen, ihelt⟩ := ih (k + 1) (by omega)
        constructor
        · rw [List.length_cons, ihlen]
          omega
        · intro t
          cases t with
          | zero =>
            have h0 : (k + 0) * 128 < fwSize := by omega
            rw [List.getElem?_cons_zero, if_pos h0, Nat.add_zero]
          | succ t2 =>
            rw [List.getElem?_cons_succ,
              show k + (t2 + 1) = (k + 1) + t2 from by omega]
            exact ihelt t2
      · have hmin : min (k * 128 + 128) fwSize = fwSize := by omega
        rw [hcons, hmin, leqi_aux_nil d n fwSize fwSize (le_refl _) f]
        constructor
        · rw [List.length_cons, List.length_nil]
          omega
        · intro t
          cases t with
          | zero =>
            have h0 : (k + 0) * 128 < fwSize := by omega
            rw [List.getElem?_cons_zero, if_pos h0, Nat.add_zero]
          | succ t2 =>
            rw [List.getElem?_cons_succ, List.getElem?_nil,
              if_neg (show ¬(k + (t2 + 1)) * 128 < fwSize from by omega)]
    · rw [leqi_aux_nil d n fwSize (k * 128) (by omega) (f + 1)]
      constructor
      · rw [List.length_nil]
        omega
      · intro t
        rw [List.getElem?_nil, if_neg (by omega)]

theorem leqi_data_packets_spec (d : Nat → Nat) (n fwSize : Nat) :
    (leqi_data_packets d n fwSize).length = (fwSize + 127) / 128 ∧
      ∀ t, (leqi_data_packets d n fwSize)[t]? =
        if t * 128 < fwSize then some (leqi_data_packet d n fwSize (t * 128))
        else none := by
  obtain ⟨hlen, helt⟩ := leqi_packets_aux_spec d n fwSize fwSize 0 (by omega)
  simp only [Nat.zero_mul, Nat.sub_zero, Nat.zero_add] at hlen helt
  exact ⟨hlen, helt⟩


/-- **C6.** LEQI flashing: `calculate_firmware_size` returns the end offset of
a longest `0xAA` run of length > 500, rounded up to a 128-byte boundary, and
the buffer length when no such run exists; `_send_firmware_data` then sends
exactly `ceil(fw_size / 128)` data packets, the `k`-th carrying the 4-byte
little-endian offset `k * 128`, the slice `FW[k*128 : min(k*128+128, fw_size)]`
right-padded with `0xFF` to 128 bytes, and a big-endian CRC-16 trailer; in
particular an 800-byte `0xAA` run ending at `0x1F40` gives
`fw_size = 0x1F80` and 63 data packets. -/
theorem C6_leqi_fw_size_and_packets (d : Nat → Nat) (n fwSize : Nat) :
    ((∃ s e, IsRun d n s e ∧ 500 < e - s) →
        ∃ s e, IsRun d n s e ∧ 500 < e - s ∧
          (∀ s2 e2, IsRun d n s2 e2 → e2 - s2 ≤ e - s) ∧
          calculate_firmware_size d n = ((e + 127) / 128) * 128) ∧
      ((∀ s e, IsRun d n s e → e - s ≤ 500) → calculate_firmware_size d n = n) ∧
      ((leqi_data_packets d n fwSize).length = (fwSize + 127) / 128 ∧
        ∀ t, (leqi_data_packets d n fwSize)[t]? =
          if t * 128 < fwSize then some (leqi_data_packet d n fwSize (t * 128))
          else none) ∧
      calculate_firmware_size leqi_example_fw 8000 = 0x1F80 ∧
      (leqi_data_packets leqi_example_fw 8000 0x1F80).length = 63 := by
  have hbyte : ∀ k, 7200 ≤ k → k < 8000 → leqi_example_fw k = 0xAA := by
    intro k h1 h2
    unfold leqi_example_fw
    rw [if_pos ⟨h1, h2⟩]
  have hbyte2 : ∀ k, ¬(7200 ≤ k ∧ k < 8000) → leqi_example_fw k = 0 := by
    intro k h
    unfold leqi_example_fw
    rw [if_neg h]
  have hrun : IsRun leqi_example_fw 8000 7200 8000 := by
    refine ⟨by omega, le_refl _, hbyte, Or.inr ?_, Or.inl rfl⟩
    show leqi_example_fw 7199 ≠ 0xAA
    rw [hbyte2 7199 (by omega)]
    decide
  obtain ⟨s1, e1, hr1, hbig1, hmax1, hcalc1⟩ :=
    (calculate_firmware_size_spec leqi_example_fw 8000).1 ⟨7200, 8000, hrun, by omega⟩
  have hs1 : 7200 ≤ s1 := by
    have hds : leqi_example_fw s1 = 0xAA := hr1.2.2.1 s1 (le_refl s1) hr1.1
    by_contra h
    rw [hbyte2 s1 (by omega)] at hds
    omega
  have he1 : e1 = 8000 := by
    rcases hr1.2.2.2.2 with h | h
    · exact h
    · by_contra hne
      have h2 := hr1.2.1
      exact h (hbyte e1 (by omega) (by omega))
  have hfs : calculate_firmware_size leqi_example_fw 8000 = 0x1F80 := by
    rw [hcalc1, he1]
  refine ⟨(calculate_firmware_size_spec d n).1, (calculate_firmware_size_spec d n).2,
    leqi_data_packets_spec d n fwSize, hfs, ?_⟩
  rw [(leqi_data_packets_spec leqi_example_fw 8000 0x1F80).1]

theorem C6_witness :
    calculate_firmware_size (fun _ => 0) 5 = 5 ∧
      (leqi_data_packets (fun _ => 0) 5 5).length = (5 + 127) / 128 ∧
      calculate_firmware_size leqi_example_fw 8000 = 0x1F80 ∧
      (leqi_data_packets leqi_example_fw 8000 0x1F80).length = 63 := by
  have hz : ∀ s e, IsRun (fun _ => 0) 5 s e → e - s ≤ 500 := by
    intro s e hr
    have h := hr.2.2.1 s (le_refl s) hr.1
    simp at h
  exact ⟨(C6_leqi_fw_size_and_packets (fun _ => 0) 5 5).2.1 hz,
    (C6_leqi_fw_size_and_packets (fun _ => 0) 5 5).2.2.1.1,
    (C6_leqi_fw_size_and_packets (fun _ => 0) 5 5).2.2.2.1,
    (C6_leqi_fw_size_and_packets (fun _ => 0) 5 5).2.2.2.2⟩

end BwFlasher
